import Mathlib

/-!
Verification of two cores of the Go-Tools repository: the selector-resolution
functions (LookupFieldOrMethod, MissingMethod, lookupMethod and their helpers)
and the import-graph builder (Graph.Search, Graph.addEdge, Build).

The Go code is shallowly embedded: Go maps become association lists, the
recursive graph walk and the breadth-first embedding search receive an explicit
fuel argument whose sufficiency is proved, named types are referenced through
an environment of integer handles (pointer identity in Go), and the concurrent
producers of Build are abstracted as the finite list of events drained by the
single consumer routine.
-/

namespace ImportGraph

/-- Import dependency graph, as in the source: each node (a package import
path) maps to the set of its successors. The Go map from string to string-set
is modelled as an association list from node to successor list. -/
abbrev Graph := List (String × List String)

/-- Successor set of a node: the Go expression g[x], empty when x has no
entry in the map. -/
def Graph.succs (g : Graph) (x : String) : List String :=
  match g.find? (fun p => p.1 == x) with
  | some p => p.2
  | none => []

/-- Every node name the graph mentions: keys together with edge targets. -/
def Graph.nodes (g : Graph) : List String :=
  g.foldr (fun p acc => p.1 :: (p.2 ++ acc)) []

/-- Run the visitor over a worklist of start nodes, threading the seen set;
this is the for-range loops of Graph.Search (over the roots, and over the
successors of a node inside visit). -/
def visitList (visitF : String → List String → List String) :
    List String → List String → List String
  | [], seen => seen
  | x :: xs, seen => visitList visitF xs (visitF x seen)

/-- The recursive closure visit of Graph.Search: if x is unseen, mark it and
visit all its successors. The fuel argument bounds the recursion depth; the
bound supplied by Graph.Search is proved sufficient. -/
def visit (g : Graph) : Nat → String → List String → List String
  | 0, _, seen => seen
  | fuel+1, x, seen =>
    if x ∈ seen then seen
    else visitList (visit g fuel) (Graph.succs g x) (x :: seen)

/-- Graph.Search from the source: all nodes reachable from any of the roots
by following edges forwards, via depth-first traversal with a seen set. -/
def Graph.Search (g : Graph) (roots : List String) : List String :=
  visitList (visit g (List.length (Graph.nodes g) + 2)) roots []

/-- Graph.addEdge from the source: record an edge from src to dst, creating
the entry for src if it does not exist yet. -/
def Graph.addEdge (g : Graph) (src dst : String) : Graph :=
  match g with
  | [] => [(src, [dst])]
  | (k, vs) :: rest =>
    if k = src then (k, if dst ∈ vs then vs else dst :: vs) :: rest
    else (k, vs) :: Graph.addEdge rest src dst

/-- One event arriving on the fan-in channel inside Build: either a package
load failure or a discovered import edge. Error values are abstracted to a
numeric tag. -/
inductive BuildEvent where
  | pathError (path : String) (err : Nat)
  | importEdge (src dst : String)

/-- Consumer step of Build: how one drained channel event updates the forward
graph, the reverse graph and the error map. Edges whose target is the fake
package C are skipped, exactly as in the source. -/
def buildStep (acc : Graph × Graph × List (String × Nat)) (e : BuildEvent) :
    Graph × Graph × List (String × Nat) :=
  match e with
  | .pathError p err => (acc.1, acc.2.1, (p, err) :: acc.2.2)
  | .importEdge src dst =>
    if dst = "C" then acc
    else (Graph.addEdge acc.1 src dst, Graph.addEdge acc.2.1 dst src, acc.2.2)

/-- Build's consumer loop. The concurrent per-package producers are abstracted
as the arbitrary finite list of events drained from the shared channel; the
single consumer folds them into (forward, reverse, errors). -/
def Build (events : List BuildEvent) : Graph × Graph × List (String × Nat) :=
  events.foldl buildStep ([], [], [])

/-- Path from x to y in g every node of which (x and y included) avoids the
given list. Used to characterise the intermediate seen sets of visit. -/
inductive PathAvoid (g : Graph) (avoid : List String) : String → String → Prop where
  | refl (x : String) (hx : x ∉ avoid) : PathAvoid g avoid x x
  | step (x y z : String) (hx : x ∉ avoid) (hy : y ∈ Graph.succs g x)
      (h : PathAvoid g avoid y z) : PathAvoid g avoid x z

/-- Reflexive transitive closure of the edge relation of a graph. -/
inductive Reaches (g : Graph) : String → String → Prop where
  | refl (x : String) : Reaches g x x
  | step (x y z : String) (hy : y ∈ Graph.succs g x) (h : Reaches g y z) :
      Reaches g x z

/-- Number of graph nodes not yet seen: the quantity that shrinks as visit
recurses, used to show the fuel chosen by Graph.Search suffices. -/
def neededFuel (g : Graph) (seen : List String) : Nat :=
  ((Graph.nodes g).toFinset \ seen.toFinset).card

end ImportGraph

namespace GoTypes

mutual

/-- The type model consumed by the lookup functions (Go's Type interface with
the kinds the source inspects: Named, Struct, Interface, Pointer, and an
opaque Basic for every other kind). Named types are reference-identity
entities in Go; they are modelled as integer handles into an environment, so
that the seen and multiples maps key on identity and cyclic embedding graphs
are representable. -/
inductive Ty where
  | basic : Nat → Ty
  | named : Nat → Ty
  | strukt : List Field → Ty
  | iface : List Func → Ty
  | pointer : Ty → Ty

/-- A struct field: name, declaring package path, type, anonymous flag. -/
inductive Field where
  | mk : String → String → Ty → Bool → Field

/-- A function or method: name, declaring package path, optional receiver
type (none for interface methods and plain functions) and an opaque tag
standing for the parameter and result types of its signature. -/
inductive Func where
  | mk : String → String → Option Ty → Nat → Func

end

def Field.name : Field → String
  | .mk n _ _ _ => n

def Field.pkg : Field → String
  | .mk _ p _ _ => p

def Field.typ : Field → Ty
  | .mk _ _ t _ => t

def Field.anonymous : Field → Bool
  | .mk _ _ _ a => a

def Func.name : Func → String
  | .mk n _ _ _ => n

def Func.pkg : Func → String
  | .mk _ p _ _ => p

def Func.recv : Func → Option Ty
  | .mk _ _ r _ => r

def Func.sig : Func → Nat
  | .mk _ _ _ s => s

/-- A named type carries its ordered list of declared methods and exactly one
underlying type. -/
structure NamedInfo where
  methods : List Func
  underlying : Ty

/-- The environment of named types; the handle of a named type is its
position in this list (Go pointer identity). -/
abbrev TEnv := List NamedInfo

/-- Resolve a handle; Go named-type pointers are never dangling, a handle out
of range behaves as an empty named type. -/
def TEnv.info (env : TEnv) (id : Nat) : NamedInfo :=
  env.getD id ⟨[], .basic 0⟩

/-- Model of ast.IsExported, restricted to the ASCII upper-case letters the
workspace uses: the first character of the name is upper case. -/
def isExported (name : String) : Bool :=
  match name.data with
  | [] => false
  | c :: _ => c.isUpper

/-- The identifier comparison spelled out in lookupMethod and fieldIndex:
identical spelling, and either an exported name or an identical declaring
package path. -/
def matchesSel (mname mpkg pkg name : String) : Bool :=
  mname == name && (isExported name || mpkg == pkg)

/-- Modelled from the spec: Field.isMatch is declared outside the given
sources; per the visibility rule it matches a selector exactly when the
spelling is identical and the name is exported or declared in the requesting
package, the same comparison lookupMethod and fieldIndex write out. -/
def Field.isMatch (f : Field) (pkg name : String) : Bool :=
  matchesSel f.name f.pkg pkg name

/-- The same comparison for a method, as written in lookupMethod. -/
def Func.isMatch (m : Func) (pkg name : String) : Bool :=
  matchesSel m.name m.pkg pkg name

/-- Go's deref: strip one pointer and report whether one was stripped. -/
def deref : Ty → Ty × Bool
  | .pointer b => (b, true)
  | t => (t, false)

/-- Go's concat: append one index to an index path, without sharing. -/
def concat (list : List Nat) (i : Nat) : List Nat :=
  list ++ [i]

/-- Worker of lookupMethod, carrying the index of the method under
inspection. -/
def lookupMethodGo (pkg name : String) : Nat → List Func → Option (Nat × Func)
  | _, [] => none
  | i, m :: rest =>
    if m.isMatch pkg name then some (i, m)
    else lookupMethodGo pkg name (i+1) rest

/-- lookupMethod from the source: index of and method with matching package
and name, or nothing. -/
def lookupMethod (methods : List Func) (pkg name : String) : Option (Nat × Func) :=
  lookupMethodGo pkg name 0 methods

/-- The object returned by LookupFieldOrMethod: a field or a method. -/
inductive Object where
  | field : Field → Object
  | func : Func → Object

/-- embeddedType from the source: an embedded named type on the current
depth's worklist. A none handle means use the outer starting type instead
(only ever the case for the single entry at depth 0). -/
structure EmbeddedType where
  typ : Option Nat
  index : List Nat
  indirect : Bool
  multiples : Bool

/-- The triple LookupFieldOrMethod returns. The index is an optional list to
keep Go's distinction between a nil slice (reported on plain failure) and a
non-nil one (reported on an ambiguous match). -/
structure LookupResult where
  obj : Option Object
  index : Option (List Nat)
  indirect : Bool

/-- The function-level state of LookupFieldOrMethod while scanning one depth:
the named result variables obj, index, indirect, the seen set of named
handles, and the worklist collected for the next depth. -/
structure LoopState where
  obj : Option Object
  index : Option (List Nat)
  indirect : Bool
  seen : List Nat
  next : List EmbeddedType

/-- Mark the already-kept entry of the given named handle as appearing
multiple times (the list[i].multiples = true assignment of
consolidateMultiples). -/
def markMultiples (kept : List EmbeddedType) (t : Option Nat) : List EmbeddedType :=
  kept.map fun k => if k.typ = t then { k with multiples := true } else k

/-- Worker of consolidateMultiples: fold the list keeping the first entry per
named handle and flagging it when the handle recurs. -/
def consolidateGo : List EmbeddedType → List EmbeddedType → List EmbeddedType
  | kept, [] => kept
  | kept, e :: rest =>
    if e.typ ∈ kept.map EmbeddedType.typ then
      consolidateGo (markMultiples kept e.typ) rest
    else
      consolidateGo (kept ++ [e]) rest

/-- consolidateMultiples from the source: collapse entries that denote the
same named type into a single entry flagged multiples. -/
def consolidateMultiples (list : List EmbeddedType) : List EmbeddedType :=
  if list.length ≤ 1 then list else consolidateGo [] list

/-- The field loop of the Struct case of LookupFieldOrMethod: scan fields in
declaration order, record a match (a second same-depth match or a match on a
multiples entry is a collision and returns early), and collect anonymous
fields of named type for the next depth while no match has been seen. -/
def processFields (pkg name : String) (e : EmbeddedType) :
    Nat → List Field → LoopState → Except LookupResult LoopState
  | _, [], st => .ok st
  | i, f :: rest, st =>
    if f.isMatch pkg name then
      if st.obj.isSome || e.multiples then
        .error ⟨none, some (concat e.index i), st.indirect⟩
      else
        processFields pkg name e (i+1) rest
          { st with obj := some (.field f), index := some (concat e.index i),
                    indirect := e.indirect }
    else if st.obj.isNone && f.anonymous then
      match deref f.typ with
      | (Ty.named id, isPtr) =>
        processFields pkg name e (i+1) rest
          { st with next := st.next ++ [⟨some id, concat e.index i, e.indirect || isPtr, e.multiples⟩] }
      | _ => processFields pkg name e (i+1) rest st
    else
      processFields pkg name e (i+1) rest st

/-- The switch on the underlying type of an entry: structs are scanned field
by field, interfaces through their method set, anything else yields nothing. -/
def processUnderlying (pkg name : String) (e : EmbeddedType) (u : Ty)
    (st : LoopState) : Except LookupResult LoopState :=
  match u with
  | .strukt fields => processFields pkg name e 0 fields st
  | .iface methods =>
    match lookupMethod methods pkg name with
    | some (i, m) =>
      if st.obj.isSome || e.multiples then
        .error ⟨none, some (concat e.index i), st.indirect⟩
      else
        .ok { st with obj := some (.func m), index := some (concat e.index i),
                      indirect := e.indirect }
    | none => .ok st
  | _ => .ok st

/-- Processing of one worklist entry: skip a named type already seen at a
shallower depth, otherwise mark it seen, prefer its directly declared
methods, and fall through to its underlying type. The start argument is the
outer typ variable used by the single handle-free entry at depth 0. -/
def processEntry (env : TEnv) (start : Ty) (pkg name : String) (st : LoopState)
    (e : EmbeddedType) : Except LookupResult LoopState :=
  match e.typ with
  | some id =>
    if id ∈ st.seen then .ok st
    else
      match lookupMethod (TEnv.info env id).methods pkg name with
      | some (i, m) =>
        if st.obj.isSome || e.multiples then
          .error ⟨none, some (concat e.index i), st.indirect⟩
        else
          .ok { st with obj := some (.func m), index := some (concat e.index i),
                        indirect := e.indirect, seen := id :: st.seen }
      | none => processUnderlying pkg name e (TEnv.info env id).underlying
          { st with seen := id :: st.seen }
  | none => processUnderlying pkg name e start st

/-- One depth of the breadth-first search: process every entry of the current
worklist, short-circuiting on a collision. -/
def processDepth (env : TEnv) (start : Ty) (pkg name : String) :
    List EmbeddedType → LoopState → Except LookupResult LoopState
  | [], st => .ok st
  | e :: rest, st =>
    match processEntry env start pkg name st e with
    | .error r => .error r
    | .ok st1 => processDepth env start pkg name rest st1

/-- The depth loop of LookupFieldOrMethod: at each depth process the current
worklist; a collision returns the ambiguous triple, a match returns it
(shallower depth wins), otherwise continue with the consolidated next
worklist. An empty worklist is a plain failure with nil index and false
indirect. The fuel bounds the number of depths; LookupFieldOrMethod supplies
a provably sufficient bound. -/
def lookupLoop (env : TEnv) (start : Ty) (pkg name : String) :
    Nat → List EmbeddedType → LoopState → Option LookupResult
  | 0, _, _ => none
  | fuel+1, current, st =>
    match current with
    | [] => some ⟨none, none, false⟩
    | e :: rest =>
      match processDepth env start pkg name (e :: rest) { st with next := [] } with
      | .error r => some r
      | .ok st1 =>
        match st1.obj with
        | some o => some ⟨some o, st1.index, st1.indirect⟩
        | none => lookupLoop env start pkg name fuel (consolidateMultiples st1.next) st1

/-- Depth bound handed to lookupLoop: each productive depth marks at least
one fresh named handle seen, and all handles of a well-formed environment
are below its length. -/
def lookupFuel (env : TEnv) : Nat :=
  env.length + 3

/-- LookupFieldOrMethod from the source: look up a field or method with the
given package and name in typ. Returns the found object, the index path (nil
on plain failure, non-nil on an ambiguous entry) and whether a pointer
indirection occurred on the path. -/
def LookupFieldOrMethod (env : TEnv) (typ : Ty) (pkg name : String) :
    Option LookupResult :=
  if name = "_" then some ⟨none, none, false⟩
  else
    let d := deref typ
    let t : Option Nat :=
      match d.1 with
      | .named id => some id
      | _ => none
    lookupLoop env d.1 pkg name (lookupFuel env) [⟨t, [], d.2, false⟩]
      ⟨none, none, false, [], []⟩

/-- Modelled from the spec: IsIdentical is declared outside the given
sources. Structural identity of the signature types compared by
MissingMethod; the receiver is not part of a signature's identity, the
parameter and result types are abstracted by the signature tag. -/
def IsIdentical (f m : Func) : Bool :=
  f.sig == m.sig

/-- Modelled from the spec: Type.Underlying is declared outside the given
sources. A named type resolves to its one stored underlying type, every
other type is its own underlying type. -/
def underlyingOf (env : TEnv) (t : Ty) : Ty :=
  match t with
  | .named id => (TEnv.info env id).underlying
  | t => t

/-- Kind test used to pick MissingMethod's branch. -/
def Ty.isIface : Ty → Bool
  | .iface _ => true
  | _ => false

/-- The loop of MissingMethod when typ's underlying type is an interface:
every required method must occur in its method set with an identical
signature. -/
def missingLoopIface (imethods : List Func) : List Func → Option Func × Bool
  | [] => (none, false)
  | m :: rest =>
    match lookupMethod imethods m.pkg m.name with
    | none => (some m, false)
    | some (_, obj) =>
      if IsIdentical obj m then missingLoopIface imethods rest
      else (some m, true)

/-- The loop of MissingMethod for a concrete type: resolve each required
method through LookupFieldOrMethod; a missing name, a non-method, or a
pointer-receiver method reached without indirection is reported missing, a
name match with a different signature is reported with the wrong-type flag.
The outer option is fuel exhaustion of the resolver, impossible for a
well-formed environment. -/
def missingLoopConcrete (env : TEnv) (typ : Ty) :
    List Func → Option (Option Func × Bool)
  | [] => some (none, false)
  | m :: rest =>
    match LookupFieldOrMethod env typ m.pkg m.name with
    | none => none
    | some r =>
      match r.obj with
      | none => some (some m, false)
      | some (.field _) => some (some m, false)
      | some (.func f) =>
        if (match f.recv with
            | some rt => (deref rt).2 && !r.indirect
            | none => false) then
          some (some m, false)
        else if IsIdentical f m then missingLoopConcrete env typ rest
        else some (some m, true)

/-- MissingMethod from the source, with an interface given by its method
set: (none, false) when typ implements T, otherwise the first missing
required method and whether it is missing or simply has the wrong type. -/
def MissingMethod (env : TEnv) (typ : Ty) (T : List Func) :
    Option (Option Func × Bool) :=
  if T.isEmpty then some (none, false)
  else
    match underlyingOf env typ with
    | .iface ims => some (missingLoopIface ims T)
    | _ => missingLoopConcrete env typ T

/-- Handle bound for the named type an embedded field resolves to: embedded
fields are always of the form T or pointer to T, so one deref suffices. -/
def fieldIdOk (n : Nat) (f : Field) : Bool :=
  match (deref f.typ).1 with
  | .named id => decide (id < n)
  | _ => true

/-- Handle bound for a type as the search inspects it: its own handle if
named, the handles of its embedded fields if a struct, through one level of
pointer for the initial dereference. -/
def tyIdsOk (n : Nat) : Ty → Bool
  | .named id => decide (id < n)
  | .strukt fields => fields.all (fieldIdOk n)
  | .pointer t => tyIdsOk n t
  | _ => true

/-- Well-formed environment: every stored underlying type only mentions
handles of the environment (Go named-type pointers are never dangling). -/
def TEnv.wf (env : TEnv) : Bool :=
  env.all fun info => tyIdsOk env.length info.underlying

/-- Modelled from the spec: the classification of one required method of an
interface against a concrete type, in the spec's words. The method is
satisfied (inner none) when it resolves to a method in the value's method
set with an identical signature; the failure flag is false when the name is
missing entirely, resolves to a non-method, or fails the method-set test
(pointer receiver reached without indirection), and true exactly when a
member of the name is present with a structurally different signature. The
outer option is resolver fuel exhaustion. -/
def requiredStatus (env : TEnv) (typ : Ty) (m : Func) : Option (Option Bool) :=
  match LookupFieldOrMethod env typ m.pkg m.name with
  | none => none
  | some r =>
    match r.obj with
    | none => some (some false)
    | some (.field _) => some (some false)
    | some (.func f) =>
      if (match f.recv with
          | some rt => (deref rt).2 && !r.indirect
          | none => false) then some (some false)
      else if IsIdentical f m then some none
      else some (some true)

/-- Modelled from the spec: the first required method, in the interface's
method-set order, that a concrete type fails to satisfy, with its failure
flag; satisfied when none fails. -/
def firstUnsatisfied (env : TEnv) (typ : Ty) : List Func → Option (Option Func × Bool)
  | [] => some (none, false)
  | m :: rest =>
    match requiredStatus env typ m with
    | none => none
    | some none => firstUnsatisfied env typ rest
    | some (some b) => some (some m, b)

/-- Modelled from the spec: the classification of one required method when
the checked type is itself an interface: its method set must contain the
name with an identical signature. -/
def requiredStatusIface (imethods : List Func) (m : Func) : Option Bool :=
  match lookupMethod imethods m.pkg m.name with
  | none => some false
  | some (_, obj) => if IsIdentical obj m then none else some true

/-- Modelled from the spec: the first required method an interface type
fails to provide, with the missing versus wrong-type flag. -/
def firstUnsatisfiedIface (imethods : List Func) : List Func → Option Func × Bool
  | [] => (none, false)
  | m :: rest =>
    match requiredStatusIface imethods m with
    | none => firstUnsatisfiedIface imethods rest
    | some b => (some m, b)

end GoTypes

section Sanity

example : ImportGraph.Graph.Search [("a", ["b"])] ["a"] = ["b", "a"] := rfl

example : ImportGraph.Graph.Search [("a", ["b"]), ("b", ["a", "c"])] ["a"] =
    ["c", "b", "a"] := by decide

end Sanity

namespace GoTypes

example :
    LookupFieldOrMethod
      [⟨[], .strukt [Field.mk "Embedded" "p" (.named 1) true,
                     Field.mk "X" "p" (.basic 0) false]⟩,
       ⟨[Func.mk "M" "p" (some (.named 1)) 0],
        .strukt [Field.mk "X" "p" (.basic 0) false]⟩]
      (.named 0) "p" "M"
    = some ⟨some (.func (Func.mk "M" "p" (some (.named 1)) 0)), some [0, 0], false⟩ := rfl

example :
    LookupFieldOrMethod
      [⟨[], .strukt [Field.mk "Embedded" "p" (.named 1) true,
                     Field.mk "X" "p" (.basic 0) false]⟩,
       ⟨[Func.mk "M" "p" (some (.named 1)) 0],
        .strukt [Field.mk "X" "p" (.basic 0) false]⟩]
      (.named 0) "p" "X"
    = some ⟨some (.field (Field.mk "X" "p" (.basic 0) false)), some [1], false⟩ := rfl

end GoTypes

namespace ImportGraph

theorem addEdge_target_free {g : Graph} {src dst c : String}
    (hg : ∀ p ∈ g, c ∉ p.2) (hdst : dst ≠ c) :
    ∀ p ∈ Graph.addEdge g src dst, c ∉ p.2 := by
  induction g with
  | nil =>
    intro p hp
    simp only [Graph.addEdge, List.mem_singleton] at hp
    subst hp
    simp [Ne.symm hdst]
  | cons q rest ih =>
    obtain ⟨k, vs⟩ := q
    intro p hp
    simp only [Graph.addEdge] at hp
    by_cases hk : k = src
    · simp only [if_pos hk, List.mem_cons] at hp
      rcases hp with hp | hp
      · subst hp
        by_cases hmem : dst ∈ vs
        · simpa [hmem] using hg (k, vs) (List.mem_cons_self _ _)
        · have := hg (k, vs) (List.mem_cons_self _ _)
          simp only [hmem, if_neg] at *
          intro hc
          rcases List.mem_cons.mp hc with hc | hc
          · exact hdst hc.symm
          · exact this hc
      · exact hg p (List.mem_cons_of_mem _ hp)
    · simp only [if_neg hk, List.mem_cons] at hp
      rcases hp with hp | hp
      · subst hp
        exact hg (k, vs) (List.mem_cons_self _ _)
      · exact ih (fun q hq => hg q (List.mem_cons_of_mem _ hq)) p hp

theorem addEdge_key_free {g : Graph} {src dst c : String}
    (hg : ∀ p ∈ g, p.1 ≠ c) (hsrc : src ≠ c) :
    ∀ p ∈ Graph.addEdge g src dst, p.1 ≠ c := by
  induction g with
  | nil =>
    intro p hp
    simp only [Graph.addEdge, List.mem_singleton] at hp
    subst hp
    exact hsrc
  | cons q rest ih =>
    obtain ⟨k, vs⟩ := q
    intro p hp
    simp only [Graph.addEdge] at hp
    by_cases hk : k = src
    · simp only [if_pos hk, List.mem_cons] at hp
      rcases hp with hp | hp
      · subst hp
        exact hg (k, vs) (List.mem_cons_self _ _)
      · exact hg p (List.mem_cons_of_mem _ hp)
    · simp only [if_neg hk, List.mem_cons] at hp
      rcases hp with hp | hp
      · subst hp
        exact hg (k, vs) (List.mem_cons_self _ _)
      · exact ih (fun q hq => hg q (List.mem_cons_of_mem _ hq)) p hp

theorem build_foldl_C_free (events : List BuildEvent) :
    ∀ acc : Graph × Graph × List (String × Nat),
      (∀ p ∈ acc.1, "C" ∉ p.2) → (∀ p ∈ acc.2.1, p.1 ≠ "C") →
      (∀ p ∈ (events.foldl buildStep acc).1, "C" ∉ p.2) ∧
      (∀ p ∈ (events.foldl buildStep acc).2.1, p.1 ≠ "C") := by
  induction events with
  | nil => exact fun acc h1 h2 => ⟨h1, h2⟩
  | cons e rest ih =>
    intro acc h1 h2
    rw [List.foldl_cons]
    apply ih
    · cases e with
      | pathError p err => exact h1
      | importEdge src dst =>
        simp only [buildStep]
        by_cases hdst : dst = "C"
        · simp only [if_pos hdst]; exact h1
        · simp only [if_neg hdst]
          exact addEdge_target_free h1 hdst
    · cases e with
      | pathError p err => exact h2
      | importEdge src dst =>
        simp only [buildStep]
        by_cases hdst : dst = "C"
        · simp only [if_pos hdst]; exact h2
        · simp only [if_neg hdst]
          exact addEdge_key_free h2 hdst

/-- C8: the pseudo-import path C never appears in the graphs produced by
Build: no forward edge targets C, and C is never a key of the reverse graph,
whatever import lists the packages report. -/
theorem c8_build_filters_C (events : List BuildEvent) :
    (∀ p ∈ (Build events).1, "C" ∉ p.2) ∧
    (∀ p ∈ (Build events).2.1, p.1 ≠ "C") :=
  build_foldl_C_free events ([], [], [])
    (by intro p hp; cases hp) (by intro p hp; cases hp)

/-- Witness for C8 at a concrete event list containing an edge to C. -/
theorem c8_build_filters_C_witness :
    ("C" : String) ∉ ["b"] ∧ ("b" : String) ≠ "C" :=
  ⟨(c8_build_filters_C [BuildEvent.importEdge "a" "C", BuildEvent.importEdge "a" "b"]).1
     ("a", ["b"]) (by decide),
   (c8_build_filters_C [BuildEvent.importEdge "a" "C", BuildEvent.importEdge "a" "b"]).2
     ("b", ["a"]) (by decide)⟩

/-- C10: Graph.Search includes every root even when the root has no entry in
the graph map: from a single unknown root it returns exactly that singleton,
and with zero roots it returns the empty set. -/
theorem c10_search_unknown_root :
    (∀ (g : Graph) (root : String), (∀ p ∈ g, p.1 ≠ root) →
      Graph.Search g [root] = [root]) ∧
    (∀ g : Graph, Graph.Search g [] = []) := by
  constructor
  · intro g root hroot
    have hfind : g.find? (fun p => p.1 == root) = none := by
      rw [List.find?_eq_none]
      intro p hp
      simpa using hroot p hp
    have hsuccs : Graph.succs g root = [] := by
      simp [Graph.succs, hfind]
    show visitList _ [root] [] = [root]
    simp only [visitList, visit, List.not_mem_nil, if_false, hsuccs]
  · intro g
    rfl

/-- Witness for C10 at a concrete graph and root absent from it. -/
theorem c10_search_unknown_root_witness :
    Graph.Search [("a", ["b"])] ["c"] = ["c"] ∧
    Graph.Search [("a", ["b"])] [] = [] :=
  ⟨c10_search_unknown_root.1 [("a", ["b"])] "c" (by decide),
   c10_search_unknown_root.2 [("a", ["b"])]⟩

theorem mem_nodes_of_mem {g : Graph} {p : String × List String} (hp : p ∈ g) :
    p.1 ∈ Graph.nodes g ∧ ∀ y ∈ p.2, y ∈ Graph.nodes g := by
  induction g with
  | nil => cases hp
  | cons q rest ih =>
    have hnodes : Graph.nodes (q :: rest) = q.1 :: (q.2 ++ Graph.nodes rest) := rfl
    rcases List.mem_cons.mp hp with rfl | hp
    · constructor
      · rw [hnodes]; exact List.mem_cons_self _ _
      · intro y hy
        rw [hnodes]
        exact List.mem_cons_of_mem _ (List.mem_append_left _ hy)
    · obtain ⟨h1, h2⟩ := ih hp
      constructor
      · rw [hnodes]
        exact List.mem_cons_of_mem _ (List.mem_append_right _ h1)
      · intro y hy
        rw [hnodes]
        exact List.mem_cons_of_mem _ (List.mem_append_right _ (h2 y hy))

theorem succs_subset_nodes {g : Graph} {x y : String}
    (hy : y ∈ Graph.succs g x) : y ∈ Graph.nodes g := by
  unfold Graph.succs at hy
  cases hf : g.find? (fun p => p.1 == x) with
  | none => rw [hf] at hy; cases hy
  | some p =>
    rw [hf] at hy
    exact (mem_nodes_of_mem (List.mem_of_find?_eq_some hf)).2 y hy

theorem mem_nodes_of_succs_ne_nil {g : Graph} {x : String}
    (h : Graph.succs g x ≠ []) : x ∈ Graph.nodes g := by
  unfold Graph.succs at h
  cases hf : g.find? (fun p => p.1 == x) with
  | none => rw [hf] at h; exact absurd rfl h
  | some p =>
    have hx : p.1 = x := by simpa using List.find?_some hf
    have := (mem_nodes_of_mem (List.mem_of_find?_eq_some hf)).1
    rwa [hx] at this

theorem PathAvoid.head_not_mem {g : Graph} {s : List String} {x y : String}
    (h : PathAvoid g s x y) : x ∉ s := by
  cases h with
  | refl _ hx => exact hx
  | step _ _ _ hx _ _ => exact hx

theorem PathAvoid.mono {g : Graph} {s s' : List String} {x y : String}
    (h : PathAvoid g s' x y) (hs : s ⊆ s') : PathAvoid g s x y := by
  induction h with
  | refl u hu => exact PathAvoid.refl u (fun hc => hu (hs hc))
  | step u v z hu hv _ ih => exact PathAvoid.step u v z (fun hc => hu (hs hc)) hv ih

theorem PathAvoid.trans {g : Graph} {s : List String} {x y z : String}
    (h1 : PathAvoid g s x y) (h2 : PathAvoid g s y z) : PathAvoid g s x z := by
  induction h1 with
  | refl _ _ => exact h2
  | step u v _ hu hv _ ih => exact PathAvoid.step u v z hu hv (ih h2)

theorem pathAvoid_cases {g : Graph} {s : List String} {u y : String}
    (h : PathAvoid g s u y) (x : String) :
    y = x ∨ (∃ w ∈ Graph.succs g x, PathAvoid g (x :: s) w y) ∨
      PathAvoid g (x :: s) u y := by
  induction h with
  | refl u hu =>
    by_cases hux : u = x
    · exact Or.inl hux
    · refine Or.inr (Or.inr (PathAvoid.refl u ?_))
      intro hc
      rcases List.mem_cons.mp hc with hc | hc
      · exact hux hc
      · exact hu hc
  | step u v z hu hv hsub ih =>
    rcases ih with h | ⟨w, hw, hp⟩ | hvz
    · exact Or.inl h
    · exact Or.inr (Or.inl ⟨w, hw, hp⟩)
    · by_cases hux : u = x
      · subst hux
        exact Or.inr (Or.inl ⟨v, hv, hvz⟩)
      · refine Or.inr (Or.inr (PathAvoid.step u v z ?_ hv hvz))
        intro hc
        rcases List.mem_cons.mp hc with hc | hc
        · exact hux hc
        · exact hu hc

theorem pathAvoid_surgery {g : Graph} {s : List String} {x y : String}
    (h : PathAvoid g s x y) :
    y = x ∨ ∃ w ∈ Graph.succs g x, PathAvoid g (x :: s) w y := by
  rcases pathAvoid_cases h x with h | h | h
  · exact Or.inl h
  · exact Or.inr h
  · exact absurd h.head_not_mem (by simp)

theorem visitList_subset (visitF : String → List String → List String)
    (hF : ∀ x s, s ⊆ visitF x s) :
    ∀ (l seen : List String), seen ⊆ visitList visitF l seen := by
  intro l
  induction l with
  | nil => intro seen; exact fun a ha => ha
  | cons x xs ih =>
    intro seen
    exact List.Subset.trans (hF x seen) (ih (visitF x seen))

theorem visit_subset (g : Graph) :
    ∀ (fuel : Nat) (x : String) (seen : List String), seen ⊆ visit g fuel x seen := by
  intro fuel
  induction fuel with
  | zero => intro x seen; exact fun a ha => ha
  | succ fuel ih =>
    intro x seen
    rw [visit]
    by_cases hx : x ∈ seen
    · rw [if_pos hx]
      exact fun a ha => ha
    · rw [if_neg hx]
      exact List.Subset.trans (List.subset_cons_self x seen)
        (visitList_subset (visit g fuel) (fun x s => ih x s) _ _)

theorem toFinset_subset_of_subset {l l' : List String} (h : l ⊆ l') :
    l.toFinset ⊆ l'.toFinset := by
  intro a ha
  rw [List.mem_toFinset] at ha ⊢
  exact h ha

theorem neededFuel_mono {g : Graph} {seen seen' : List String} (h : seen ⊆ seen') :
    neededFuel g seen' ≤ neededFuel g seen :=
  Finset.card_le_card
    (Finset.sdiff_subset_sdiff (Finset.Subset.refl _) (toFinset_subset_of_subset h))

theorem neededFuel_cons_lt {g : Graph} {seen : List String} {x : String}
    (hx : x ∈ Graph.nodes g) (hs : x ∉ seen) :
    neededFuel g (x :: seen) < neededFuel g seen := by
  unfold neededFuel
  rw [List.toFinset_cons, Finset.sdiff_insert]
  apply Finset.card_erase_lt_of_mem
  rw [Finset.mem_sdiff, List.mem_toFinset, List.mem_toFinset]
  exact ⟨hx, hs⟩

theorem neededFuel_nil_le (g : Graph) :
    neededFuel g [] ≤ (Graph.nodes g).length := by
  unfold neededFuel
  simp only [List.toFinset_nil, Finset.sdiff_empty]
  exact (Graph.nodes g).toFinset_card_le

theorem pathAvoid_absorb {g : Graph} {seen seen1 : List String} {x : String}
    (hchar : ∀ z, z ∈ seen1 ↔ z ∈ seen ∨ PathAvoid g seen x z) :
    ∀ {w y : String}, PathAvoid g seen w y → y ∈ seen1 ∨ PathAvoid g seen1 w y := by
  intro w y hp
  induction hp with
  | refl u hu =>
    by_cases h : u ∈ seen1
    · exact Or.inl h
    · exact Or.inr (PathAvoid.refl u h)
  | step u v z hu hv hsub ih =>
    rcases ih with h | h
    · exact Or.inl h
    · by_cases hu1 : u ∈ seen1
      · have hxu : PathAvoid g seen x u := ((hchar u).mp hu1).resolve_left hu
        have huz : PathAvoid g seen u z := PathAvoid.step u v z hu hv hsub
        exact Or.inl ((hchar z).mpr (Or.inr (hxu.trans huz)))
      · exact Or.inr (PathAvoid.step u v z hu1 hv h)

theorem visitList_char (g : Graph) (fuel : Nat)
    (ihc : ∀ (x : String) (seen : List String), neededFuel g seen + 1 ≤ fuel →
      ∀ y, y ∈ visit g fuel x seen ↔ y ∈ seen ∨ PathAvoid g seen x y) :
    ∀ (l seen : List String), neededFuel g seen + 1 ≤ fuel →
      ∀ y, y ∈ visitList (visit g fuel) l seen ↔
        y ∈ seen ∨ ∃ x ∈ l, PathAvoid g seen x y := by
  intro l
  induction l with
  | nil =>
    intro seen _ y
    simp [visitList]
  | cons x xs ih =>
    intro seen hfuel y
    rw [visitList]
    have hsub : seen ⊆ visit g fuel x seen := visit_subset g fuel x seen
    have hchar1 : ∀ z, z ∈ visit g fuel x seen ↔ z ∈ seen ∨ PathAvoid g seen x z :=
      ihc x seen hfuel
    have hfuel1 : neededFuel g (visit g fuel x seen) + 1 ≤ fuel :=
      le_trans (Nat.add_le_add_right (neededFuel_mono hsub) 1) hfuel
    rw [ih (visit g fuel x seen) hfuel1 y]
    constructor
    · rintro (hy | ⟨w, hw, hp⟩)
      · rcases (hchar1 y).mp hy with h | h
        · exact Or.inl h
        · exact Or.inr ⟨x, List.mem_cons_self _ _, h⟩
      · exact Or.inr ⟨w, List.mem_cons_of_mem _ hw, hp.mono hsub⟩
    · rintro (hy | ⟨w, hw, hp⟩)
      · exact Or.inl (hsub hy)
      · rcases List.mem_cons.mp hw with rfl | hw'
        · exact Or.inl ((hchar1 y).mpr (Or.inr hp))
        · rcases pathAvoid_absorb hchar1 hp with h | h
          · exact Or.inl h
          · exact Or.inr ⟨w, hw', h⟩

theorem visit_char (g : Graph) :
    ∀ (fuel : Nat) (x : String) (seen : List String),
      neededFuel g seen + 1 ≤ fuel →
      ∀ y, y ∈ visit g fuel x seen ↔ y ∈ seen ∨ PathAvoid g seen x y := by
  intro fuel
  induction fuel with
  | zero => intro x seen h; exact absurd h (by omega)
  | succ fuel ih =>
    intro x seen hfuel y
    rw [visit]
    by_cases hx : x ∈ seen
    · rw [if_pos hx]
      constructor
      · exact Or.inl
      · rintro (h | h)
        · exact h
        · exact absurd h.head_not_mem (fun hc => hc hx)
    · rw [if_neg hx]
      by_cases hnil : Graph.succs g x = []
      · rw [hnil]
        show y ∈ visitList (visit g fuel) [] (x :: seen) ↔ _
        simp only [visitList, List.mem_cons]
        constructor
        · rintro (rfl | h)
          · exact Or.inr (PathAvoid.refl y hx)
          · exact Or.inl h
        · rintro (h | h)
          · exact Or.inr h
          · cases h with
            | refl => exact Or.inl rfl
            | step _ w _ _ hw _ => rw [hnil] at hw; cases hw
      · have hxnodes : x ∈ Graph.nodes g := mem_nodes_of_succs_ne_nil hnil
        have hlt : neededFuel g (x :: seen) < neededFuel g seen :=
          neededFuel_cons_lt hxnodes hx
        have hfuel' : neededFuel g (x :: seen) + 1 ≤ fuel := by omega
        rw [visitList_char g fuel ih (Graph.succs g x) (x :: seen) hfuel' y]
        constructor
        · rintro (h | ⟨w, hw, hp⟩)
          · rcases List.mem_cons.mp h with rfl | h
            · exact Or.inr (PathAvoid.refl y hx)
            · exact Or.inl h
          · exact Or.inr (PathAvoid.step x w y hx hw (hp.mono (List.subset_cons_self x seen)))
        · rintro (h | h)
          · exact Or.inl (List.mem_cons_of_mem _ h)
          · rcases pathAvoid_surgery h with rfl | ⟨w, hw, hp⟩
            · exact Or.inl (List.mem_cons_self _ _)
            · exact Or.inr ⟨w, hw, hp⟩

theorem pathAvoid_nil_iff_reaches {g : Graph} {x y : String} :
    PathAvoid g [] x y ↔ Reaches g x y := by
  constructor
  · intro h
    induction h with
    | refl u _ => exact Reaches.refl u
    | step u v z _ hv _ ih => exact Reaches.step u v z hv ih
  · intro h
    induction h with
    | refl u => exact PathAvoid.refl u (List.not_mem_nil u)
    | step u v z hv _ ih => exact PathAvoid.step u v z (List.not_mem_nil u) hv ih

/-- C7: Graph.Search returns exactly the reflexive transitive closure of the
edge relation from the roots, for every graph, cyclic ones included: a node
is in the result exactly when some root reaches it. -/
theorem c7_search_eq_reachable (g : Graph) (roots : List String) (y : String) :
    y ∈ Graph.Search g roots ↔ ∃ r ∈ roots, Reaches g r y := by
  unfold Graph.Search
  have hfuel : neededFuel g [] + 1 ≤ List.length (Graph.nodes g) + 2 := by
    have := neededFuel_nil_le g
    omega
  rw [visitList_char g (List.length (Graph.nodes g) + 2)
    (visit_char g (List.length (Graph.nodes g) + 2)) roots [] hfuel y]
  simp only [List.not_mem_nil, false_or]
  constructor
  · rintro ⟨r, hr, hp⟩
    exact ⟨r, hr, pathAvoid_nil_iff_reaches.mp hp⟩
  · rintro ⟨r, hr, hp⟩
    exact ⟨r, hr, pathAvoid_nil_iff_reaches.mpr hp⟩

/-- Witness for C7 at a concrete two-edge graph: the model of the spec's
round-trip scenario where a imports b and b imports c. -/
theorem c7_search_eq_reachable_witness :
    "c" ∈ Graph.Search [("a", ["b"]), ("b", ["c"])] ["a"] :=
  (c7_search_eq_reachable [("a", ["b"]), ("b", ["c"])] ["a"] "c").mpr
    ⟨"a", by decide,
     Reaches.step "a" "b" "c" (by decide)
       (Reaches.step "b" "c" "c" (by decide) (Reaches.refl "c"))⟩

end ImportGraph

namespace GoTypes

theorem matchesSel_iff {mn mp pkg name : String} :
    matchesSel mn mp pkg name = true ↔
      mn = name ∧ (isExported name = true ∨ mp = pkg) := by
  simp [matchesSel, Bool.and_eq_true, Bool.or_eq_true]

theorem lookupMethodGo_eq_some {pkg name : String} :
    ∀ (l : List Func) (i j : Nat) (m : Func),
      lookupMethodGo pkg name i l = some (j, m) →
      m ∈ l ∧ m.isMatch pkg name = true := by
  intro l
  induction l with
  | nil => intro i j m h; simp [lookupMethodGo] at h
  | cons f rest ih =>
    intro i j m h
    rw [lookupMethodGo] at h
    by_cases hm : f.isMatch pkg name
    · rw [if_pos hm] at h
      simp only [Option.some.injEq, Prod.mk.injEq] at h
      obtain ⟨-, rfl⟩ := h
      exact ⟨List.mem_cons_self _ _, hm⟩
    · rw [if_neg hm] at h
      obtain ⟨h1, h2⟩ := ih (i+1) j m h
      exact ⟨List.mem_cons_of_mem _ h1, h2⟩

theorem lookupMethodGo_ne_none {pkg name : String} :
    ∀ (l : List Func) (i : Nat),
      lookupMethodGo pkg name i l ≠ none ↔
        ∃ m ∈ l, m.isMatch pkg name = true := by
  intro l
  induction l with
  | nil => intro i; simp [lookupMethodGo]
  | cons f rest ih =>
    intro i
    rw [lookupMethodGo]
    by_cases hm : f.isMatch pkg name
    · rw [if_pos hm]
      simp only [ne_eq, reduceCtorEq, not_false_eq_true, true_iff]
      exact ⟨f, List.mem_cons_self _ _, hm⟩
    · rw [if_neg hm]
      rw [ih (i+1)]
      constructor
      · rintro ⟨m, hmem, hmatch⟩
        exact ⟨m, List.mem_cons_of_mem _ hmem, hmatch⟩
      · rintro ⟨m, hmem, hmatch⟩
        rcases List.mem_cons.mp hmem with rfl | hmem
        · exact absurd hmatch hm
        · exact ⟨m, hmem, hmatch⟩

/-- C6: at every comparison point of the search, a member matches the
selector exactly when its name is spelled identically and it is exported or
declared in the requesting package: the rule for struct fields, the rule for
methods, and soundness and completeness of lookupMethod with respect to it. -/
theorem c6_visibility_rule :
    (∀ (f : Field) (pkg name : String),
      f.isMatch pkg name = true ↔
        f.name = name ∧ (isExported name = true ∨ f.pkg = pkg)) ∧
    (∀ (m : Func) (pkg name : String),
      m.isMatch pkg name = true ↔
        m.name = name ∧ (isExported name = true ∨ m.pkg = pkg)) ∧
    (∀ (methods : List Func) (pkg name : String) (i : Nat) (m : Func),
      lookupMethod methods pkg name = some (i, m) →
        m ∈ methods ∧ m.name = name ∧ (isExported name = true ∨ m.pkg = pkg)) ∧
    (∀ (methods : List Func) (pkg name : String),
      lookupMethod methods pkg name ≠ none ↔
        ∃ m ∈ methods, m.name = name ∧ (isExported name = true ∨ m.pkg = pkg)) := by
  refine ⟨fun f pkg name => matchesSel_iff, fun m pkg name => matchesSel_iff,
    fun methods pkg name i m h => ?_, fun methods pkg name => ?_⟩
  · obtain ⟨h1, h2⟩ := lookupMethodGo_eq_some methods 0 i m h
    exact ⟨h1, matchesSel_iff.mp h2⟩
  · rw [show lookupMethod methods pkg name = lookupMethodGo pkg name 0 methods from rfl,
      lookupMethodGo_ne_none methods 0]
    constructor
    · rintro ⟨m, hmem, hmatch⟩
      exact ⟨m, hmem, matchesSel_iff.mp hmatch⟩
    · rintro ⟨m, hmem, hmatch⟩
      exact ⟨m, hmem, matchesSel_iff.mpr hmatch⟩

/-- Witness for C6: an exported name matches across packages, and a
same-package non-exported method is found by lookupMethod. -/
theorem c6_visibility_rule_witness :
    (Field.mk "X" "q" (Ty.basic 0) false).isMatch "p" "X" = true ∧
    (Func.mk "m" "p" none 0) ∈ [Func.mk "m" "p" none 0] :=
  ⟨(c6_visibility_rule.1 (Field.mk "X" "q" (Ty.basic 0) false) "p" "X").mpr
      ⟨rfl, Or.inl rfl⟩,
   (c6_visibility_rule.2.2.1 [Func.mk "m" "p" none 0] "p" "m" 0
      (Func.mk "m" "p" none 0) rfl).1⟩

theorem processFields_error {pkg name : String} {e : EmbeddedType} :
    ∀ (l : List Field) (i : Nat) (st : LoopState) (r : LookupResult),
      processFields pkg name e i l st = .error r →
      r.obj = none ∧ ∃ ix, r.index = some ix := by
  intro l
  induction l with
  | nil => intro i st r h; simp [processFields] at h
  | cons f rest ih =>
    intro i st r h
    rw [processFields] at h
    by_cases hm : f.isMatch pkg name
    · rw [if_pos hm] at h
      by_cases hc : (st.obj.isSome || e.multiples) = true
      · rw [if_pos hc] at h
        cases h
        exact ⟨rfl, _, rfl⟩
      · rw [if_neg hc] at h
        exact ih _ _ _ h
    · rw [if_neg hm] at h
      by_cases ha : (st.obj.isNone && f.anonymous) = true
      · rw [if_pos ha] at h
        split at h
        · exact ih _ _ _ h
        · exact ih _ _ _ h
      · rw [if_neg ha] at h
        exact ih _ _ _ h

theorem processUnderlying_error {pkg name : String} {e : EmbeddedType} {u : Ty}
    {st : LoopState} {r : LookupResult}
    (h : processUnderlying pkg name e u st = .error r) :
    r.obj = none ∧ ∃ ix, r.index = some ix := by
  unfold processUnderlying at h
  split at h
  · exact processFields_error _ _ _ _ h
  · split at h
    · split at h
      · cases h
        exact ⟨rfl, _, rfl⟩
      · cases h
    · cases h
  · cases h

theorem processEntry_error {env : TEnv} {start : Ty} {pkg name : String}
    {st : LoopState} {e : EmbeddedType} {r : LookupResult}
    (h : processEntry env start pkg name st e = .error r) :
    r.obj = none ∧ ∃ ix, r.index = some ix := by
  unfold processEntry at h
  split at h
  · split at h
    · cases h
    · split at h
      · split at h
        · cases h
          exact ⟨rfl, _, rfl⟩
        · cases h
      · exact processUnderlying_error h
  · exact processUnderlying_error h

theorem processDepth_error {env : TEnv} {start : Ty} {pkg name : String} :
    ∀ (current : List EmbeddedType) (st : LoopState) (r : LookupResult),
      processDepth env start pkg name current st = .error r →
      r.obj = none ∧ ∃ ix, r.index = some ix := by
  intro current
  induction current with
  | nil => intro st r h; simp [processDepth] at h
  | cons e rest ih =>
    intro st r h
    rw [processDepth] at h
    split at h
    · rename_i heq
      cases h
      exact processEntry_error heq
    · exact ih _ _ h

theorem lookupLoop_nil_index {env : TEnv} {start : Ty} {pkg name : String} :
    ∀ (fuel : Nat) (current : List EmbeddedType) (st : LoopState) (r : LookupResult),
      lookupLoop env start pkg name fuel current st = some r →
      r.obj = none → r.index = none → r.indirect = false := by
  intro fuel
  induction fuel with
  | zero => intro current st r h; simp [lookupLoop] at h
  | succ fuel ih =>
    intro current st r h hobj hidx
    simp only [lookupLoop] at h
    split at h
    · cases h
      rfl
    · split at h
      · rename_i heq
        cases h
        obtain ⟨-, ix, hix⟩ := processDepth_error _ _ _ heq
        rw [hix] at hidx
        cases hidx
      · split at h
        · cases h
          simp at hobj
        · exact ih _ _ _ h hobj hidx

/-- C9: whenever LookupFieldOrMethod reports not found, with a nil object
and a nil index path, the indirect result is false as well. -/
theorem c9_not_found_indirect_false (env : TEnv) (typ : Ty) (pkg name : String)
    (r : LookupResult) (h : LookupFieldOrMethod env typ pkg name = some r)
    (hobj : r.obj = none) (hidx : r.index = none) : r.indirect = false := by
  unfold LookupFieldOrMethod at h
  split at h
  · cases h
    rfl
  · exact lookupLoop_nil_index _ _ _ _ h hobj hidx

/-- Witness for C9: a lookup on an empty environment fails outright and
reports indirect false. -/
theorem c9_not_found_indirect_false_witness :
    (⟨none, none, false⟩ : LookupResult).indirect = false :=
  c9_not_found_indirect_false [] (Ty.basic 0) "p" "X" ⟨none, none, false⟩ rfl rfl rfl

theorem processFields_skip {pkg name : String} (e : EmbeddedType) :
    ∀ (l : List Field) (i : Nat) (st : LoopState),
      (∀ g ∈ l, g.isMatch pkg name = false) →
      ∃ nx, processFields pkg name e i l st = .ok { st with next := nx } := by
  intro l
  induction l with
  | nil =>
    intro i st _
    exact ⟨st.next, rfl⟩
  | cons g rest ih =>
    intro i st hno
    have hg : g.isMatch pkg name = false := hno g (List.mem_cons_self _ _)
    have hrest : ∀ g' ∈ rest, g'.isMatch pkg name = false :=
      fun g' hg' => hno g' (List.mem_cons_of_mem _ hg')
    rw [processFields, if_neg (by rw [hg]; exact Bool.false_ne_true)]
    by_cases ha : (st.obj.isNone && g.anonymous) = true
    · rw [if_pos ha]
      split
      · rename_i id isPtr heq
        obtain ⟨nx, hnx⟩ := ih (i+1)
          { st with next := st.next ++ [⟨some id, concat e.index i, e.indirect || isPtr, e.multiples⟩] }
          hrest
        exact ⟨nx, hnx⟩
      · exact ih (i+1) st hrest
    · rw [if_neg ha]
      exact ih (i+1) st hrest

theorem processFields_stop {pkg name : String} (e : EmbeddedType) :
    ∀ (l : List Field) (i : Nat) (st : LoopState),
      st.obj.isSome = true →
      (∀ g ∈ l, g.isMatch pkg name = false) →
      processFields pkg name e i l st = .ok st := by
  intro l
  induction l with
  | nil => intro i st _ _; rfl
  | cons g rest ih =>
    intro i st ho hno
    have hg : g.isMatch pkg name = false := hno g (List.mem_cons_self _ _)
    have hrest : ∀ g' ∈ rest, g'.isMatch pkg name = false :=
      fun g' hg' => hno g' (List.mem_cons_of_mem _ hg')
    rw [processFields, if_neg (by rw [hg]; exact Bool.false_ne_true)]
    have hnone : st.obj.isNone = false := by
      cases hobj : st.obj with
      | none => rw [hobj] at ho; cases ho
      | some _ => simp [hobj]
    rw [if_neg (by rw [hnone]; simp)]
    exact ih (i+1) st ho hrest

theorem processFields_append {pkg name : String} {e : EmbeddedType} :
    ∀ (l1 l2 : List Field) (i : Nat) (st : LoopState),
      processFields pkg name e i (l1 ++ l2) st =
        match processFields pkg name e i l1 st with
        | .error r => .error r
        | .ok st' => processFields pkg name e (i + l1.length) l2 st' := by
  intro l1
  induction l1 with
  | nil =>
    intro l2 i st
    simp [processFields]
  | cons g rest ih =>
    intro l2 i st
    have harith : i + 1 + rest.length = i + (g :: rest).length := by
      simp [List.length_cons]
      omega
    rw [List.cons_append, processFields, processFields]
    by_cases hm : g.isMatch pkg name = true
    · rw [if_pos hm, if_pos hm]
      by_cases hc : (st.obj.isSome || e.multiples) = true
      · rw [if_pos hc, if_pos hc]
      · rw [if_neg hc, if_neg hc, ih, harith]
    · rw [if_neg hm, if_neg hm]
      by_cases ha : (st.obj.isNone && g.anonymous) = true
      · rw [if_pos ha, if_pos ha]
        split
        · rw [ih, harith]
        · rw [ih, harith]
      · rw [if_neg ha, if_neg ha, ih, harith]

/-- C1: the breadth-first search stops at the first depth containing a
match. First, in general: whenever one depth's scan completes without a
collision and records a member, the loop returns exactly that member without
descending further, whatever the deeper frontiers hold. Second, the depth-0
instance: a struct whose field list matches the selector exactly once
resolves to that field, whatever members its embedded fields would
contribute at deeper depths. -/
theorem c1_first_depth_wins :
    (∀ (env : TEnv) (start : Ty) (pkg name : String) (fuel : Nat)
       (current : List EmbeddedType) (st st1 : LoopState) (o : Object),
       st.obj = none →
       processDepth env start pkg name current { st with next := [] } = .ok st1 →
       st1.obj = some o →
       lookupLoop env start pkg name (fuel+1) current st =
         some ⟨some o, st1.index, st1.indirect⟩) ∧
    (∀ (env : TEnv) (pkg name : String) (pre : List Field) (f : Field)
       (post : List Field),
       name ≠ "_" →
       f.isMatch pkg name = true →
       (∀ g ∈ pre, g.isMatch pkg name = false) →
       (∀ g ∈ post, g.isMatch pkg name = false) →
       LookupFieldOrMethod env (Ty.strukt (pre ++ f :: post)) pkg name =
         some ⟨some (Object.field f), some [pre.length], false⟩) := by
  constructor
  · intro env start pkg name fuel current st st1 o hobj hdepth ho
    cases current with
    | nil =>
      rw [processDepth] at hdepth
      cases hdepth
      simp [hobj] at ho
    | cons e rest =>
      simp only [lookupLoop, hdepth, ho]
  · intro env pkg name pre f post hname hmatch hpre hpost
    obtain ⟨k, hk⟩ : ∃ k, lookupFuel env = k + 1 := ⟨env.length + 2, by simp [lookupFuel]⟩
    unfold LookupFieldOrMethod
    rw [if_neg hname, hk]
    obtain ⟨nx, hprerun⟩ :=
      processFields_skip ⟨none, [], false, false⟩ pre 0
        ⟨none, none, false, [], []⟩ hpre
    have h2 : processFields pkg name ⟨none, [], false, false⟩ (0 + pre.length)
        (f :: post) ⟨none, none, false, [], nx⟩ =
        .ok ⟨some (Object.field f), some [pre.length], false, [], nx⟩ := by
      rw [processFields, if_pos hmatch, if_neg (by simp)]
      have := processFields_stop ⟨none, [], false, false⟩ post (0 + pre.length + 1)
        ⟨some (Object.field f), some (concat [] (0 + pre.length)), false, [], nx⟩
        rfl hpost
      simpa [concat] using this
    have hstep :
        processFields pkg name ⟨none, [], false, false⟩ 0 (pre ++ f :: post)
          ⟨none, none, false, [], []⟩ =
        .ok ⟨some (Object.field f), some [pre.length], false, [], nx⟩ := by
      rw [processFields_append, hprerun]
      exact h2
    simp only [lookupLoop, processDepth, processEntry, processUnderlying, deref, hstep]

/-- Witness for C1 at a one-field struct: the general depth lemma applied to
a concrete depth-0 frontier, and the shadowing statement at empty pre and
post lists. -/
theorem c1_first_depth_wins_witness :
    lookupLoop [] (Ty.strukt [Field.mk "X" "p" (Ty.basic 0) false]) "p" "X" 1
      [⟨none, [], false, false⟩] ⟨none, none, false, [], []⟩ =
      some ⟨some (Object.field (Field.mk "X" "p" (Ty.basic 0) false)), some [0], false⟩ ∧
    LookupFieldOrMethod [] (Ty.strukt [Field.mk "X" "p" (Ty.basic 0) false]) "p" "X" =
      some ⟨some (Object.field (Field.mk "X" "p" (Ty.basic 0) false)), some [0], false⟩ :=
  ⟨c1_first_depth_wins.1 [] (Ty.strukt [Field.mk "X" "p" (Ty.basic 0) false]) "p" "X" 0
      [⟨none, [], false, false⟩] ⟨none, none, false, [], []⟩
      ⟨some (Object.field (Field.mk "X" "p" (Ty.basic 0) false)), some [0], false, [], []⟩
      (Object.field (Field.mk "X" "p" (Ty.basic 0) false)) rfl rfl rfl,
   c1_first_depth_wins.2 [] "p" "X" [] (Field.mk "X" "p" (Ty.basic 0) false) []
      (by decide) rfl (by simp) (by simp)⟩

theorem processFields_embed {pkg name : String} {e : EmbeddedType} {f : Field}
    {id : Nat} (l : List Field) (i : Nat) (st : LoopState)
    (hm : f.isMatch pkg name = false) (ha : f.anonymous = true)
    (ht : f.typ = Ty.named id) (ho : st.obj = none) :
    processFields pkg name e i (f :: l) st =
      processFields pkg name e (i+1) l
        { st with next := st.next ++ [⟨some id, concat e.index i, e.indirect, e.multiples⟩] } := by
  rw [processFields, if_neg (by rw [hm]; exact Bool.false_ne_true),
    if_pos (by rw [ho, ha]; rfl), ht]
  simp [deref]

theorem processEntry_method_hit {env : TEnv} {start : Ty} {pkg name : String}
    (st : LoopState) (e : EmbeddedType) {id i : Nat} {m : Func}
    (he : e.typ = some id) (hseen : id ∉ st.seen)
    (hm : lookupMethod (TEnv.info env id).methods pkg name = some (i, m))
    (hcol : (st.obj.isSome || e.multiples) = false) :
    processEntry env start pkg name st e =
      .ok { st with obj := some (.func m), index := some (concat e.index i),
                    indirect := e.indirect, seen := id :: st.seen } := by
  unfold processEntry
  rw [he]
  simp only [if_neg hseen, hm]
  rw [if_neg (by rw [hcol]; exact Bool.false_ne_true)]

theorem processEntry_method_error {env : TEnv} {start : Ty} {pkg name : String}
    (st : LoopState) (e : EmbeddedType) {id i : Nat} {m : Func}
    (he : e.typ = some id) (hseen : id ∉ st.seen)
    (hm : lookupMethod (TEnv.info env id).methods pkg name = some (i, m))
    (hcol : (st.obj.isSome || e.multiples) = true) :
    processEntry env start pkg name st e =
      .error ⟨none, some (concat e.index i), st.indirect⟩ := by
  unfold processEntry
  rw [he]
  simp only [if_neg hseen, hm]
  rw [if_pos hcol]

theorem lookupLoop_cons_error (env : TEnv) (start : Ty) (pkg name : String)
    (fuel : Nat) (e : EmbeddedType) (rest : List EmbeddedType) (st : LoopState)
    (r : LookupResult)
    (h : processDepth env start pkg name (e :: rest) { st with next := [] } = .error r) :
    lookupLoop env start pkg name (fuel+1) (e :: rest) st = some r := by
  simp only [lookupLoop, h]

theorem lookupLoop_cons_continue (env : TEnv) (start : Ty) (pkg name : String)
    (fuel : Nat) (e : EmbeddedType) (rest : List EmbeddedType) (st st1 : LoopState)
    (h : processDepth env start pkg name (e :: rest) { st with next := [] } = .ok st1)
    (ho : st1.obj = none) :
    lookupLoop env start pkg name (fuel+1) (e :: rest) st =
      lookupLoop env start pkg name fuel (consolidateMultiples st1.next) st1 := by
  simp only [lookupLoop, h, ho]

/-- C2: two matches at one depth yield an ambiguous result, an absent object
together with a non-nil index path. First, in general: whenever one depth's
scan collides, the loop returns the collision triple, whose object is none
and whose index is non-nil, so callers can tell ambiguity from plain
failure. Second, the collision of two distinct embedded branches declaring
the selector at the same depth. Third, the collision of a single branch
flagged multiples because its named type was embedded twice. -/
theorem c2_same_depth_ambiguity :
    (∀ (env : TEnv) (start : Ty) (pkg name : String) (fuel : Nat)
       (current : List EmbeddedType) (st : LoopState) (r : LookupResult),
       processDepth env start pkg name current { st with next := [] } = .error r →
       lookupLoop env start pkg name (fuel+1) current st = some r ∧
         r.obj = none ∧ ∃ ix, r.index = some ix) ∧
    (∀ (env : TEnv) (pkg name : String) (a b ia ib : Nat) (mA mB : Func)
       (fa fb : Field),
       name ≠ "_" → a ≠ b →
       fa.typ = Ty.named a → fb.typ = Ty.named b →
       fa.anonymous = true → fb.anonymous = true →
       fa.isMatch pkg name = false → fb.isMatch pkg name = false →
       lookupMethod (TEnv.info env a).methods pkg name = some (ia, mA) →
       lookupMethod (TEnv.info env b).methods pkg name = some (ib, mB) →
       LookupFieldOrMethod env (Ty.strukt [fa, fb]) pkg name =
         some ⟨none, some [1, ib], false⟩) ∧
    (∀ (env : TEnv) (pkg name : String) (a ia : Nat) (mA : Func) (fa fb : Field),
       name ≠ "_" →
       fa.typ = Ty.named a → fb.typ = Ty.named a →
       fa.anonymous = true → fb.anonymous = true →
       fa.isMatch pkg name = false → fb.isMatch pkg name = false →
       lookupMethod (TEnv.info env a).methods pkg name = some (ia, mA) →
       LookupFieldOrMethod env (Ty.strukt [fa, fb]) pkg name =
         some ⟨none, some [0, ia], false⟩) := by
  refine ⟨?_, ?_, ?_⟩
  · intro env start pkg name fuel current st r hdepth
    refine ⟨?_, processDepth_error _ _ _ hdepth⟩
    cases current with
    | nil =>
      rw [processDepth] at hdepth
      cases hdepth
    | cons e rest =>
      simp only [lookupLoop, hdepth]
  · intro env pkg name a b ia ib mA mB fa fb hname hab hfa hfb haa hba hfam hfbm hma hmb
    obtain ⟨k, hk⟩ : ∃ k, lookupFuel env = k + 1 + 1 :=
      ⟨env.length + 1, by unfold lookupFuel; omega⟩
    unfold LookupFieldOrMethod
    rw [if_neg hname, hk]
    have hd0 : processFields pkg name ⟨none, [], false, false⟩ 0 [fa, fb]
        ⟨none, none, false, [], []⟩ =
        .ok ⟨none, none, false, [],
          [⟨some a, [0], false, false⟩, ⟨some b, [1], false, false⟩]⟩ := by
      rw [processFields_embed [fb] 0 _ hfam haa hfa rfl,
        processFields_embed [] (0+1) _ hfbm hba hfb rfl]
      rfl
    have hdepth0 : processDepth env (Ty.strukt [fa, fb]) pkg name
        [⟨none, [], false, false⟩] ⟨none, none, false, [], []⟩ =
        .ok ⟨none, none, false, [],
          [⟨some a, [0], false, false⟩, ⟨some b, [1], false, false⟩]⟩ := by
      simp only [processDepth, processEntry, processUnderlying, hd0]
    have hcons : consolidateMultiples
        [⟨some a, [0], false, false⟩, ⟨some b, [1], false, false⟩] =
        [⟨some a, [0], false, false⟩, ⟨some b, [1], false, false⟩] := by
      simp [consolidateMultiples, consolidateGo, Ne.symm hab]
    have hentry1 : processEntry env (Ty.strukt [fa, fb]) pkg name
        ⟨none, none, false, [], []⟩ ⟨some a, [0], false, false⟩ =
        .ok ⟨some (Object.func mA), some [0, ia], false, [a], []⟩ := by
      rw [processEntry_method_hit ⟨none, none, false, [], []⟩
        ⟨some a, [0], false, false⟩ rfl (by simp) hma rfl]
      rfl
    have hentry2 : processEntry env (Ty.strukt [fa, fb]) pkg name
        ⟨some (Object.func mA), some [0, ia], false, [a], []⟩
        ⟨some b, [1], false, false⟩ =
        .error ⟨none, some [1, ib], false⟩ := by
      rw [processEntry_method_error ⟨some (Object.func mA), some [0, ia], false, [a], []⟩
        ⟨some b, [1], false, false⟩ rfl (by simp [Ne.symm hab]) hmb rfl]
      rfl
    have hdepth1 : processDepth env (Ty.strukt [fa, fb]) pkg name
        [⟨some a, [0], false, false⟩, ⟨some b, [1], false, false⟩]
        ⟨none, none, false, [], []⟩ = .error ⟨none, some [1, ib], false⟩ := by
      simp only [processDepth, hentry1, hentry2]
    show lookupLoop env (Ty.strukt [fa, fb]) pkg name (k+1+1)
      [⟨none, [], false, false⟩] ⟨none, none, false, [], []⟩ =
      some ⟨none, some [1, ib], false⟩
    rw [lookupLoop_cons_continue env (Ty.strukt [fa, fb]) pkg name (k+1)
      ⟨none, [], false, false⟩ [] ⟨none, none, false, [], []⟩
      ⟨none, none, false, [],
        [⟨some a, [0], false, false⟩, ⟨some b, [1], false, false⟩]⟩ hdepth0 rfl]
    show lookupLoop env (Ty.strukt [fa, fb]) pkg name (k+1)
      (consolidateMultiples
        [⟨some a, [0], false, false⟩, ⟨some b, [1], false, false⟩])
      ⟨none, none, false, [],
        [⟨some a, [0], false, false⟩, ⟨some b, [1], false, false⟩]⟩ = _
    rw [hcons]
    exact lookupLoop_cons_error env (Ty.strukt [fa, fb]) pkg name k
      ⟨some a, [0], false, false⟩ [⟨some b, [1], false, false⟩]
      ⟨none, none, false, [],
        [⟨some a, [0], false, false⟩, ⟨some b, [1], false, false⟩]⟩
      ⟨none, some [1, ib], false⟩ hdepth1
  · intro env pkg name a ia mA fa fb hname hfa hfb haa hba hfam hfbm hma
    obtain ⟨k, hk⟩ : ∃ k, lookupFuel env = k + 1 + 1 :=
      ⟨env.length + 1, by unfold lookupFuel; omega⟩
    unfold LookupFieldOrMethod
    rw [if_neg hname, hk]
    have hd0 : processFields pkg name ⟨none, [], false, false⟩ 0 [fa, fb]
        ⟨none, none, false, [], []⟩ =
        .ok ⟨none, none, false, [],
          [⟨some a, [0], false, false⟩, ⟨some a, [1], false, false⟩]⟩ := by
      rw [processFields_embed [fb] 0 _ hfam haa hfa rfl,
        processFields_embed [] (0+1) _ hfbm hba hfb rfl]
      rfl
    have hdepth0 : processDepth env (Ty.strukt [fa, fb]) pkg name
        [⟨none, [], false, false⟩] ⟨none, none, false, [], []⟩ =
        .ok ⟨none, none, false, [],
          [⟨some a, [0], false, false⟩, ⟨some a, [1], false, false⟩]⟩ := by
      simp only [processDepth, processEntry, processUnderlying, hd0]
    have hcons : consolidateMultiples
        [⟨some a, [0], false, false⟩, ⟨some a, [1], false, false⟩] =
        [⟨some a, [0], false, true⟩] := by
      simp [consolidateMultiples, consolidateGo, markMultiples]
    have hentry1 : processEntry env (Ty.strukt [fa, fb]) pkg name
        ⟨none, none, false, [], []⟩ ⟨some a, [0], false, true⟩ =
        .error ⟨none, some [0, ia], false⟩ := by
      rw [processEntry_method_error ⟨none, none, false, [], []⟩
        ⟨some a, [0], false, true⟩ rfl (by simp) hma rfl]
      rfl
    have hdepth1 : processDepth env (Ty.strukt [fa, fb]) pkg name
        [⟨some a, [0], false, true⟩] ⟨none, none, false, [], []⟩ =
        .error ⟨none, some [0, ia], false⟩ := by
      simp only [processDepth, hentry1]
    show lookupLoop env (Ty.strukt [fa, fb]) pkg name (k+1+1)
      [⟨none, [], false, false⟩] ⟨none, none, false, [], []⟩ =
      some ⟨none, some [0, ia], false⟩
    rw [lookupLoop_cons_continue env (Ty.strukt [fa, fb]) pkg name (k+1)
      ⟨none, [], false, false⟩ [] ⟨none, none, false, [], []⟩
      ⟨none, none, false, [],
        [⟨some a, [0], false, false⟩, ⟨some a, [1], false, false⟩]⟩ hdepth0 rfl]
    show lookupLoop env (Ty.strukt [fa, fb]) pkg name (k+1)
      (consolidateMultiples
        [⟨some a, [0], false, false⟩, ⟨some a, [1], false, false⟩])
      ⟨none, none, false, [],
        [⟨some a, [0], false, false⟩, ⟨some a, [1], false, false⟩]⟩ = _
    rw [hcons]
    exact lookupLoop_cons_error env (Ty.strukt [fa, fb]) pkg name k
      ⟨some a, [0], false, true⟩ []
      ⟨none, none, false, [],
        [⟨some a, [0], false, false⟩, ⟨some a, [1], false, false⟩]⟩
      ⟨none, some [0, ia], false⟩ hdepth1

/-- Witness for C2: a concrete environment with two named types both
declaring method M, embedded once each by two branches, and a single named
type embedded twice. -/
theorem c2_same_depth_ambiguity_witness :
    lookupLoop [⟨[Func.mk "M" "p" none 5], Ty.basic 0⟩] (Ty.basic 0) "p" "M" 1
      [⟨some 0, [0], false, true⟩] ⟨none, none, false, [], []⟩ =
      some ⟨none, some [0, 0], false⟩ ∧
    LookupFieldOrMethod
      [⟨[Func.mk "M" "p" none 5], Ty.basic 0⟩, ⟨[Func.mk "M" "p" none 6], Ty.basic 0⟩]
      (Ty.strukt [Field.mk "A" "p" (Ty.named 0) true, Field.mk "B" "p" (Ty.named 1) true])
      "p" "M" = some ⟨none, some [1, 0], false⟩ ∧
    LookupFieldOrMethod
      [⟨[Func.mk "M" "p" none 5], Ty.basic 0⟩]
      (Ty.strukt [Field.mk "A" "p" (Ty.named 0) true, Field.mk "B" "p" (Ty.named 0) true])
      "p" "M" = some ⟨none, some [0, 0], false⟩ := by
  refine ⟨?_, ?_, ?_⟩
  · exact (c2_same_depth_ambiguity.1 [⟨[Func.mk "M" "p" none 5], Ty.basic 0⟩]
      (Ty.basic 0) "p" "M" 0 [⟨some 0, [0], false, true⟩]
      ⟨none, none, false, [], []⟩ ⟨none, some [0, 0], false⟩ rfl).1
  · exact c2_same_depth_ambiguity.2.1
      [⟨[Func.mk "M" "p" none 5], Ty.basic 0⟩, ⟨[Func.mk "M" "p" none 6], Ty.basic 0⟩]
      "p" "M" 0 1 0 0 (Func.mk "M" "p" none 5) (Func.mk "M" "p" none 6)
      (Field.mk "A" "p" (Ty.named 0) true) (Field.mk "B" "p" (Ty.named 1) true)
      (by decide) (by decide) rfl rfl rfl rfl rfl rfl rfl rfl
  · exact c2_same_depth_ambiguity.2.2
      [⟨[Func.mk "M" "p" none 5], Ty.basic 0⟩] "p" "M" 0 0
      (Func.mk "M" "p" none 5)
      (Field.mk "A" "p" (Ty.named 0) true) (Field.mk "B" "p" (Ty.named 0) true)
      (by decide) rfl rfl rfl rfl rfl rfl rfl

theorem missingLoopConcrete_eq_firstUnsatisfied (env : TEnv) (typ : Ty) :
    ∀ T : List Func, missingLoopConcrete env typ T = firstUnsatisfied env typ T := by
  intro T
  induction T with
  | nil => rfl
  | cons m rest ih =>
    cases hr : LookupFieldOrMethod env typ m.pkg m.name with
    | none => simp only [missingLoopConcrete, firstUnsatisfied, requiredStatus, hr]
    | some r =>
      cases ho : r.obj with
      | none => simp only [missingLoopConcrete, firstUnsatisfied, requiredStatus, hr, ho]
      | some o =>
        cases o with
        | field f =>
          simp only [missingLoopConcrete, firstUnsatisfied, requiredStatus, hr, ho]
        | func f =>
          by_cases hrecv : (match f.recv with
              | some rt => (deref rt).2 && !r.indirect
              | none => false) = true
          · simp only [missingLoopConcrete, firstUnsatisfied, requiredStatus, hr, ho,
              if_pos hrecv]
          · by_cases hid : IsIdentical f m = true
            · simp only [missingLoopConcrete, firstUnsatisfied, requiredStatus, hr, ho,
                if_neg hrecv, if_pos hid, ih]
            · simp only [missingLoopConcrete, firstUnsatisfied, requiredStatus, hr, ho,
                if_neg hrecv, if_neg hid]

theorem missingLoopIface_eq_firstUnsatisfiedIface (imethods : List Func) :
    ∀ T : List Func, missingLoopIface imethods T = firstUnsatisfiedIface imethods T := by
  intro T
  induction T with
  | nil => rfl
  | cons m rest ih =>
    cases hl : lookupMethod imethods m.pkg m.name with
    | none =>
      simp only [missingLoopIface, firstUnsatisfiedIface, requiredStatusIface, hl]
    | some p =>
      obtain ⟨i, obj⟩ := p
      by_cases hid : IsIdentical obj m = true
      · simp only [missingLoopIface, firstUnsatisfiedIface, requiredStatusIface, hl,
          if_pos hid, ih]
      · simp only [missingLoopIface, firstUnsatisfiedIface, requiredStatusIface, hl,
          if_neg hid]

/-- C5: MissingMethod returns (none, false) when the interface has no
required methods, and otherwise returns the first required method, in
method-set order, that the type fails to satisfy, the flag false on a name
missing entirely, a non-method resolution or a method-set failure, and true
exactly on a present name with a structurally different signature; stated
as equality with the spec-side first-failure scans. -/
theorem c5_missing_method_first_failure :
    (∀ (env : TEnv) (typ : Ty), MissingMethod env typ [] = some (none, false)) ∧
    (∀ (env : TEnv) (typ : Ty) (T : List Func),
      (underlyingOf env typ).isIface = false →
      MissingMethod env typ T = firstUnsatisfied env typ T) ∧
    (∀ (env : TEnv) (typ : Ty) (T ims : List Func),
      T ≠ [] → underlyingOf env typ = Ty.iface ims →
      MissingMethod env typ T = some (firstUnsatisfiedIface ims T)) := by
  refine ⟨fun env typ => rfl, ?_, ?_⟩
  · intro env typ T hniface
    cases T with
    | nil => rfl
    | cons m rest =>
      cases hu : underlyingOf env typ with
      | iface ims => rw [hu] at hniface; simp [Ty.isIface] at hniface
      | basic n =>
        simp only [MissingMethod, hu, List.isEmpty_cons, Bool.false_eq_true,
          if_false]
        exact missingLoopConcrete_eq_firstUnsatisfied env typ (m :: rest)
      | named id =>
        simp only [MissingMethod, hu, List.isEmpty_cons, Bool.false_eq_true,
          if_false]
        exact missingLoopConcrete_eq_firstUnsatisfied env typ (m :: rest)
      | strukt fields =>
        simp only [MissingMethod, hu, List.isEmpty_cons, Bool.false_eq_true,
          if_false]
        exact missingLoopConcrete_eq_firstUnsatisfied env typ (m :: rest)
      | pointer b =>
        simp only [MissingMethod, hu, List.isEmpty_cons, Bool.false_eq_true,
          if_false]
        exact missingLoopConcrete_eq_firstUnsatisfied env typ (m :: rest)
  · intro env typ T ims hT hu
    cases T with
    | nil => exact absurd rfl hT
    | cons m rest =>
      simp only [MissingMethod, hu, List.isEmpty_cons, Bool.false_eq_true, if_false]
      rw [missingLoopIface_eq_firstUnsatisfiedIface]

/-- Witness for C5: the empty interface, a concrete lookup failure, and an
interface-typed check at concrete inputs. -/
theorem c5_missing_method_first_failure_witness :
    MissingMethod [] (Ty.basic 0) [] = some (none, false) ∧
    MissingMethod [] (Ty.basic 0) [Func.mk "M" "p" none 7] =
      firstUnsatisfied [] (Ty.basic 0) [Func.mk "M" "p" none 7] ∧
    MissingMethod [] (Ty.iface [Func.mk "N" "p" none 3]) [Func.mk "M" "p" none 7] =
      some (firstUnsatisfiedIface [Func.mk "N" "p" none 3] [Func.mk "M" "p" none 7]) :=
  ⟨c5_missing_method_first_failure.1 [] (Ty.basic 0),
   c5_missing_method_first_failure.2.1 [] (Ty.basic 0) [Func.mk "M" "p" none 7] rfl,
   c5_missing_method_first_failure.2.2 [] (Ty.iface [Func.mk "N" "p" none 3])
     [Func.mk "M" "p" none 7] [Func.mk "N" "p" none 3] (by simp) rfl⟩

theorem firstUnsatisfied_append_ok (env : TEnv) (typ : Ty) :
    ∀ (pre l : List Func),
      (∀ m' ∈ pre, requiredStatus env typ m' = some none) →
      firstUnsatisfied env typ (pre ++ l) = firstUnsatisfied env typ l := by
  intro pre
  induction pre with
  | nil => intro l _; rfl
  | cons m' rest ih =>
    intro l hok
    rw [List.cons_append, firstUnsatisfied, hok m' (List.mem_cons_self _ _)]
    exact ih l fun x hx => hok x (List.mem_cons_of_mem _ hx)

/-- C4: a required method of the interface that resolves, for a concrete
type, to a function with a pointer receiver while the resolution needed no
indirection, is reported by MissingMethod as missing with the wrongType
flag false, provided the earlier required methods are satisfied. -/
theorem c4_pointer_receiver_missing (env : TEnv) (typ : Ty)
    (pre post : List Func) (m : Func) (r : LookupResult) (f : Func) (rt : Ty)
    (hniface : (underlyingOf env typ).isIface = false)
    (hpre : ∀ m' ∈ pre, requiredStatus env typ m' = some none)
    (hr : LookupFieldOrMethod env typ m.pkg m.name = some r)
    (hobj : r.obj = some (Object.func f))
    (hrecv : f.recv = some rt)
    (hptr : (deref rt).2 = true)
    (hind : r.indirect = false) :
    MissingMethod env typ (pre ++ m :: post) = some (some m, false) := by
  rw [c5_missing_method_first_failure.2.1 env typ _ hniface,
    firstUnsatisfied_append_ok env typ pre (m :: post) hpre]
  have hstatus : requiredStatus env typ m = some (some false) := by
    rw [requiredStatus, hr]
    simp only [hobj, hrecv, hptr, hind]
    rfl
  rw [firstUnsatisfied, hstatus]

/-- Witness for C4: a named type whose only method M has a pointer receiver
does not satisfy an interface requiring M on a plain value. -/
theorem c4_pointer_receiver_missing_witness :
    MissingMethod [⟨[Func.mk "M" "p" (some (Ty.pointer (Ty.basic 0))) 7], Ty.basic 0⟩]
      (Ty.named 0) [Func.mk "M" "p" none 7] =
      some (some (Func.mk "M" "p" none 7), false) :=
  c4_pointer_receiver_missing
    [⟨[Func.mk "M" "p" (some (Ty.pointer (Ty.basic 0))) 7], Ty.basic 0⟩]
    (Ty.named 0) [] [] (Func.mk "M" "p" none 7)
    ⟨some (Object.func (Func.mk "M" "p" (some (Ty.pointer (Ty.basic 0))) 7)),
      some [0], false⟩
    (Func.mk "M" "p" (some (Ty.pointer (Ty.basic 0))) 7) (Ty.pointer (Ty.basic 0))
    rfl (by simp) rfl rfl rfl rfl rfl

theorem seen_card_le {seen : List Nat} {n : Nat} (h : ∀ s ∈ seen, s < n) :
    seen.toFinset.card ≤ n := by
  have hsub : seen.toFinset ⊆ Finset.range n := fun s hs =>
    Finset.mem_range.mpr (h s (List.mem_toFinset.mp hs))
  calc seen.toFinset.card ≤ (Finset.range n).card := Finset.card_le_card hsub
    _ = n := Finset.card_range n

theorem seen_card_grow {s t : List Nat} (hsub : s ⊆ t) {id : Nat}
    (hid1 : id ∉ s) (hid2 : id ∈ t) :
    s.toFinset.card + 1 ≤ t.toFinset.card := by
  have hfin : s.toFinset ⊆ t.toFinset := fun a ha =>
    List.mem_toFinset.mpr (hsub (List.mem_toFinset.mp ha))
  have hss : s.toFinset ⊂ t.toFinset :=
    (Finset.ssubset_iff_of_subset hfin).mpr
      ⟨id, List.mem_toFinset.mpr hid2, fun hc => hid1 (List.mem_toFinset.mp hc)⟩
  exact Finset.card_lt_card hss

theorem info_mem {env : TEnv} {id : Nat} (h : id < env.length) :
    TEnv.info env id ∈ env := by
  unfold TEnv.info
  rw [List.getD_eq_getElem?_getD, List.getElem?_eq_getElem h]
  exact List.getElem_mem _

theorem wf_underlying {env : TEnv} {id : Nat} (hwf : TEnv.wf env = true)
    (h : id < env.length) :
    tyIdsOk env.length (TEnv.info env id).underlying = true :=
  List.all_eq_true.mp hwf _ (info_mem h)

theorem tyIdsOk_deref {n : Nat} {typ : Ty} (h : tyIdsOk n typ = true) :
    tyIdsOk n (deref typ).1 = true := by
  cases typ <;> first | rfl | exact h

theorem fieldIdOk_named {n : Nat} {f : Field} {id : Nat} {isPtr : Bool}
    (hf : fieldIdOk n f = true) (heq : deref f.typ = (Ty.named id, isPtr)) :
    id < n := by
  unfold fieldIdOk at hf
  rw [heq] at hf
  exact of_decide_eq_true hf

theorem processFields_ok_inv {pkg name : String} {e : EmbeddedType} :
    ∀ (l : List Field) (i : Nat) (st st' : LoopState),
      processFields pkg name e i l st = .ok st' →
      st'.seen = st.seen ∧
      ∀ e' ∈ st'.next, e' ∈ st.next ∨
        ∃ f ∈ l, ∃ id isPtr, deref f.typ = (Ty.named id, isPtr) ∧ e'.typ = some id := by
  intro l
  induction l with
  | nil =>
    intro i st st' h
    cases h
    exact ⟨rfl, fun e' he' => Or.inl he'⟩
  | cons f rest ih =>
    intro i st st' h
    rw [processFields] at h
    by_cases hm : f.isMatch pkg name
    · rw [if_pos hm] at h
      by_cases hc : (st.obj.isSome || e.multiples) = true
      · rw [if_pos hc] at h
        cases h
      · rw [if_neg hc] at h
        obtain ⟨h1, h2⟩ := ih _ _ _ h
        refine ⟨h1, fun e' he' => ?_⟩
        rcases h2 e' he' with hmem | ⟨g, hg, id, isPtr, heq, htyp⟩
        · exact Or.inl hmem
        · exact Or.inr ⟨g, List.mem_cons_of_mem _ hg, id, isPtr, heq, htyp⟩
    · rw [if_neg hm] at h
      by_cases ha : (st.obj.isNone && f.anonymous) = true
      · rw [if_pos ha] at h
        split at h
        · rename_i id isPtr heq
          obtain ⟨h1, h2⟩ := ih _ _ _ h
          refine ⟨h1, fun e' he' => ?_⟩
          rcases h2 e' he' with hmem | ⟨g, hg, id', isPtr', heq', htyp'⟩
          · rcases List.mem_append.mp hmem with hmem | hmem
            · exact Or.inl hmem
            · rw [List.mem_singleton] at hmem
              subst hmem
              exact Or.inr ⟨f, List.mem_cons_self _ _, id, isPtr, heq, rfl⟩
          · exact Or.inr ⟨g, List.mem_cons_of_mem _ hg, id', isPtr', heq', htyp'⟩
        · obtain ⟨h1, h2⟩ := ih _ _ _ h
          refine ⟨h1, fun e' he' => ?_⟩
          rcases h2 e' he' with hmem | ⟨g, hg, id', isPtr', heq', htyp'⟩
          · exact Or.inl hmem
          · exact Or.inr ⟨g, List.mem_cons_of_mem _ hg, id', isPtr', heq', htyp'⟩
      · rw [if_neg ha] at h
        obtain ⟨h1, h2⟩ := ih _ _ _ h
        refine ⟨h1, fun e' he' => ?_⟩
        rcases h2 e' he' with hmem | ⟨g, hg, id', isPtr', heq', htyp'⟩
        · exact Or.inl hmem
        · exact Or.inr ⟨g, List.mem_cons_of_mem _ hg, id', isPtr', heq', htyp'⟩

theorem processUnderlying_ok_inv {n : Nat} {pkg name : String} {e : EmbeddedType}
    {u : Ty} {st st' : LoopState} (hu : tyIdsOk n u = true)
    (h : processUnderlying pkg name e u st = .ok st') :
    st'.seen = st.seen ∧
    ∀ e' ∈ st'.next, e' ∈ st.next ∨ ∃ id, e'.typ = some id ∧ id < n := by
  unfold processUnderlying at h
  split at h
  · rename_i fields
    obtain ⟨h1, h2⟩ := processFields_ok_inv _ _ _ _ h
    refine ⟨h1, fun e' he' => ?_⟩
    rcases h2 e' he' with hmem | ⟨f, hf, id, isPtr, heq, htyp⟩
    · exact Or.inl hmem
    · have hfok : fieldIdOk n f = true := by
        unfold tyIdsOk at hu
        exact List.all_eq_true.mp hu f hf
      exact Or.inr ⟨id, htyp, fieldIdOk_named hfok heq⟩
  · split at h
    · split at h
      · cases h
      · cases h
        exact ⟨rfl, fun e' he' => Or.inl he'⟩
    · cases h
      exact ⟨rfl, fun e' he' => Or.inl he'⟩
  · cases h
    exact ⟨rfl, fun e' he' => Or.inl he'⟩

theorem processEntry_ok_inv {env : TEnv} {start : Ty} {pkg name : String}
    {st st' : LoopState} {e : EmbeddedType}
    (hwf : TEnv.wf env = true) (hstart : tyIdsOk env.length start = true)
    (hentry : ∀ id, e.typ = some id → id < env.length)
    (h : processEntry env start pkg name st e = .ok st') :
    (st'.seen = st.seen ∨
      ∃ id, e.typ = some id ∧ id ∉ st.seen ∧ st'.seen = id :: st.seen) ∧
    (∀ e' ∈ st'.next, e' ∈ st.next ∨ ∃ id, e'.typ = some id ∧ id < env.length) ∧
    (e.typ ≠ none → st'.next ≠ st.next → ∃ id, id ∉ st.seen ∧ id ∈ st'.seen) := by
  unfold processEntry at h
  split at h
  · rename_i id heq
    split at h
    · rename_i hseen
      cases h
      exact ⟨Or.inl rfl, fun e' he' => Or.inl he',
        fun _ hne => absurd rfl hne⟩
    · rename_i hseen
      split at h
      · split at h
        · cases h
        · cases h
          exact ⟨Or.inr ⟨id, heq, hseen, rfl⟩, fun e' he' => Or.inl he',
            fun _ hne => absurd rfl hne⟩
      · have hid : id < env.length := hentry id heq
        obtain ⟨h1, h2⟩ := processUnderlying_ok_inv (wf_underlying hwf hid) h
        refine ⟨Or.inr ⟨id, heq, hseen, h1⟩, h2, fun _ _ => ⟨id, hseen, ?_⟩⟩
        rw [h1]
        exact List.mem_cons_self _ _
  · rename_i heq
    obtain ⟨h1, h2⟩ := processUnderlying_ok_inv hstart h
    exact ⟨Or.inl h1, h2, fun hne _ => absurd heq hne⟩

theorem processDepth_ok_inv {env : TEnv} {start : Ty} {pkg name : String}
    (hwf : TEnv.wf env = true) (hstart : tyIdsOk env.length start = true) :
    ∀ (cur : List EmbeddedType) (st st' : LoopState),
      (∀ e ∈ cur, ∀ id, e.typ = some id → id < env.length) →
      processDepth env start pkg name cur st = .ok st' →
      st.seen ⊆ st'.seen ∧
      (∀ s ∈ st'.seen, s ∈ st.seen ∨ s < env.length) ∧
      (∀ e' ∈ st'.next, e' ∈ st.next ∨ ∃ id, e'.typ = some id ∧ id < env.length) ∧
      ((∀ e ∈ cur, e.typ ≠ none) → st'.next ≠ st.next →
        ∃ id, id ∉ st.seen ∧ id ∈ st'.seen) := by
  intro cur
  induction cur with
  | nil =>
    intro st st' _ h
    cases h
    exact ⟨fun a ha => ha, fun s hs => Or.inl hs, fun e' he' => Or.inl he',
      fun _ hne => absurd rfl hne⟩
  | cons e rest ih =>
    intro st st' hok h
    rw [processDepth] at h
    split at h
    · cases h
    · rename_i st1 he1
      have hE := processEntry_ok_inv hwf hstart (hok e (List.mem_cons_self _ _)) he1
      have hR := ih st1 st' (fun e' he' => hok e' (List.mem_cons_of_mem _ he')) h
      have hsub1 : st.seen ⊆ st1.seen := by
        rcases hE.1 with heq | ⟨id, _, _, heq⟩
        · rw [heq]; exact fun a ha => ha
        · rw [heq]; exact List.subset_cons_self _ _
      refine ⟨List.Subset.trans hsub1 hR.1, ?_, ?_, ?_⟩
      · intro s hs
        rcases hR.2.1 s hs with hs1 | hlt
        · rcases hE.1 with heq | ⟨id, hid, _, heq⟩
          · rw [heq] at hs1; exact Or.inl hs1
          · rw [heq] at hs1
            rcases List.mem_cons.mp hs1 with rfl | hs1
            · exact Or.inr (hok e (List.mem_cons_self _ _) s hid)
            · exact Or.inl hs1
        · exact Or.inr hlt
      · intro e' he'
        rcases hR.2.2.1 e' he' with hmem | hnew
        · rcases hE.2.1 e' hmem with hmem1 | hnew1
          · exact Or.inl hmem1
          · exact Or.inr hnew1
        · exact Or.inr hnew
      · intro hsome hne
        by_cases h1 : st1.next = st.next
        · rw [← h1] at hne
          obtain ⟨id, hid1, hid2⟩ := hR.2.2.2
            (fun e' he' => hsome e' (List.mem_cons_of_mem _ he')) hne
          exact ⟨id, fun hc => hid1 (hsub1 hc), hid2⟩
        · obtain ⟨id, hid1, hid2⟩ :=
            hE.2.2 (hsome e (List.mem_cons_self _ _)) h1
          exact ⟨id, hid1, hR.1 hid2⟩

theorem markMultiples_typ {kept : List EmbeddedType} {t : Option Nat}
    {e' : EmbeddedType} (h : e' ∈ markMultiples kept t) :
    ∃ e ∈ kept, e'.typ = e.typ := by
  unfold markMultiples at h
  obtain ⟨k, hk, heq⟩ := List.mem_map.mp h
  refine ⟨k, hk, ?_⟩
  by_cases hc : k.typ = t
  · rw [if_pos hc] at heq
    rw [← heq]
  · rw [if_neg hc] at heq
    rw [heq]

theorem consolidateGo_typ :
    ∀ (l kept : List EmbeddedType) (e' : EmbeddedType),
      e' ∈ consolidateGo kept l →
      (∃ e ∈ kept, e'.typ = e.typ) ∨ (∃ e ∈ l, e'.typ = e.typ) := by
  intro l
  induction l with
  | nil =>
    intro kept e' h
    rw [consolidateGo] at h
    exact Or.inl ⟨e', h, rfl⟩
  | cons e rest ih =>
    intro kept e' h
    rw [consolidateGo] at h
    split at h
    · rcases ih _ e' h with ⟨e1, he1, htyp⟩ | ⟨e1, he1, htyp⟩
      · obtain ⟨e2, he2, htyp2⟩ := markMultiples_typ he1
        exact Or.inl ⟨e2, he2, htyp.trans htyp2⟩
      · exact Or.inr ⟨e1, List.mem_cons_of_mem _ he1, htyp⟩
    · rcases ih _ e' h with ⟨e1, he1, htyp⟩ | ⟨e1, he1, htyp⟩
      · rcases List.mem_append.mp he1 with hk | hk
        · exact Or.inl ⟨e1, hk, htyp⟩
        · rw [List.mem_singleton] at hk
          subst hk
          exact Or.inr ⟨e1, List.mem_cons_self _ _, htyp⟩
      · exact Or.inr ⟨e1, List.mem_cons_of_mem _ he1, htyp⟩

theorem consolidateMultiples_typ {l : List EmbeddedType} {e' : EmbeddedType}
    (h : e' ∈ consolidateMultiples l) : ∃ e ∈ l, e'.typ = e.typ := by
  unfold consolidateMultiples at h
  split at h
  · exact ⟨e', h, rfl⟩
  · rcases consolidateGo_typ l [] e' h with ⟨e1, he1, _⟩ | hgood
    · cases he1
    · exact hgood

theorem lookupLoop_isSome {env : TEnv} {start : Ty} {pkg name : String}
    (hwf : TEnv.wf env = true) (hstart : tyIdsOk env.length start = true) :
    ∀ (fuel : Nat) (cur : List EmbeddedType) (st : LoopState),
      (∀ e ∈ cur, ∀ id, e.typ = some id → id < env.length) →
      (∀ e ∈ cur, e.typ ≠ none) →
      (∀ s ∈ st.seen, s < env.length) →
      env.length + 2 ≤ fuel + st.seen.toFinset.card →
      (lookupLoop env start pkg name fuel cur st).isSome := by
  intro fuel
  induction fuel with
  | zero =>
    intro cur st _ _ hseen hfuel
    have := seen_card_le hseen
    omega
  | succ fuel ih =>
    intro cur st hok hsome hseen hfuel
    cases cur with
    | nil => simp [lookupLoop]
    | cons e rest =>
      simp only [lookupLoop]
      cases hd : processDepth env start pkg name (e :: rest) { st with next := [] } with
      | error r => simp
      | ok st1 =>
        cases ho : st1.obj with
        | some o => simp [ho]
        | none =>
          simp only [ho]
          have hD := processDepth_ok_inv hwf hstart (e :: rest)
            { st with next := [] } st1 hok hd
          have hseennext : ({ st with next := ([] : List EmbeddedType) } : LoopState).seen
              = st.seen := rfl
          rw [hseennext] at hD
          have hseen1 : ∀ s ∈ st1.seen, s < env.length := fun s hs =>
            (hD.2.1 s hs).elim (fun h1 => hseen s h1) id
          have hok1 : ∀ e' ∈ consolidateMultiples st1.next,
              ∀ id, e'.typ = some id → id < env.length := by
            intro e' he' id hid
            obtain ⟨e2, he2, htyp⟩ := consolidateMultiples_typ he'
            rcases hD.2.2.1 e2 he2 with hmem | ⟨id2, hid2, hlt⟩
            · cases hmem
            · rw [htyp, hid2] at hid
              cases hid
              exact hlt
          have hsome1 : ∀ e' ∈ consolidateMultiples st1.next, e'.typ ≠ none := by
            intro e' he' hc
            obtain ⟨e2, he2, htyp⟩ := consolidateMultiples_typ he'
            rcases hD.2.2.1 e2 he2 with hmem | ⟨id2, hid2, _⟩
            · cases hmem
            · rw [htyp, hid2] at hc
              cases hc
          cases hnil : st1.next with
          | nil =>
            have hcard := seen_card_le hseen
            cases fuel with
            | zero => omega
            | succ f => simp [lookupLoop, consolidateMultiples]
          | cons x xs =>
            rw [hnil] at hok1 hsome1
            apply ih _ st1 hok1 hsome1 hseen1
            have hgrow : ∃ id, id ∉ st.seen ∧ id ∈ st1.seen := by
              apply hD.2.2.2 hsome
              rw [hnil]
              simp
            obtain ⟨id, hid1, hid2⟩ := hgrow
            have hcard := seen_card_grow hD.1 hid1 hid2
            omega

/-- C3: LookupFieldOrMethod terminates on every type graph, cyclic
embedding graphs included: with the fuel bound it passes to the depth loop,
the loop always reaches a result, because each productive depth marks a
fresh named handle seen and a well-formed environment has only finitely
many. -/
theorem c3_lookup_terminates (env : TEnv) (typ : Ty) (pkg name : String)
    (hwf : TEnv.wf env = true) (htyp : tyIdsOk env.length typ = true) :
    (LookupFieldOrMethod env typ pkg name).isSome := by
  unfold LookupFieldOrMethod
  split
  · rfl
  · have hstart : tyIdsOk env.length (deref typ).1 = true := tyIdsOk_deref htyp
    show (lookupLoop env (deref typ).1 pkg name (lookupFuel env)
      [⟨(match (deref typ).1 with | Ty.named id => some id | _ => none), [],
        (deref typ).2, false⟩]
      ⟨none, none, false, [], []⟩).isSome = true
    split
    · rename_i id heq
      apply lookupLoop_isSome hwf hstart (lookupFuel env)
      · intro e he id' hid'
        rw [List.mem_singleton] at he
        subst he
        cases hid'
        rw [heq] at hstart
        exact of_decide_eq_true hstart
      · intro e he
        rw [List.mem_singleton] at he
        subst he
        simp
      · intro s hs
        cases hs
      · have : lookupFuel env = env.length + 3 := rfl
        omega
    · obtain ⟨k, hk⟩ : ∃ k, lookupFuel env = k + 1 :=
        ⟨env.length + 2, by unfold lookupFuel; omega⟩
      rw [hk]
      simp only [lookupLoop]
      cases hd : processDepth env (deref typ).1 pkg name
          [⟨none, [], (deref typ).2, false⟩] ⟨none, none, false, [], []⟩ with
      | error r => simp
      | ok st1 =>
        cases ho : st1.obj with
        | some o => simp [ho]
        | none =>
          simp only [ho]
          have he1 : processEntry env (deref typ).1 pkg name
              ⟨none, none, false, [], []⟩ ⟨none, [], (deref typ).2, false⟩ = .ok st1 := by
            rw [processDepth] at hd
            split at hd
            · cases hd
            · rename_i st2 he2
              rw [processDepth] at hd
              cases hd
              exact he2
          have hu : processUnderlying pkg name ⟨none, [], (deref typ).2, false⟩
              (deref typ).1 ⟨none, none, false, [], []⟩ = .ok st1 := he1
          obtain ⟨h1, h2⟩ := processUnderlying_ok_inv hstart hu
          apply lookupLoop_isSome hwf hstart k
          · intro e' he' id hid
            obtain ⟨e2, he2, htyp2⟩ := consolidateMultiples_typ he'
            rcases h2 e2 he2 with hmem | ⟨id2, hid2, hlt⟩
            · cases hmem
            · rw [htyp2, hid2] at hid
              cases hid
              exact hlt
          · intro e' he' hc
            obtain ⟨e2, he2, htyp2⟩ := consolidateMultiples_typ he'
            rcases h2 e2 he2 with hmem | ⟨id2, hid2, _⟩
            · cases hmem
            · rw [htyp2, hid2] at hc
              cases hc
          · intro s hs
            rw [h1] at hs
            cases hs
          · rw [h1]
            have hkval : k = env.length + 2 := by
              have : lookupFuel env = env.length + 3 := rfl
              omega
            simp [hkval]

/-- Witness for C3: a cyclic embedding graph, type A embedding B while B
embeds A, on which the lookup of an absent name terminates with not found. -/
theorem c3_lookup_terminates_witness :
    (LookupFieldOrMethod
      [⟨[], Ty.strukt [Field.mk "B" "p" (Ty.named 1) true]⟩,
       ⟨[], Ty.strukt [Field.mk "A" "p" (Ty.named 0) true]⟩]
      (Ty.named 0) "p" "X").isSome :=
  c3_lookup_terminates
    [⟨[], Ty.strukt [Field.mk "B" "p" (Ty.named 1) true]⟩,
     ⟨[], Ty.strukt [Field.mk "A" "p" (Ty.named 0) true]⟩]
    (Ty.named 0) "p" "X" rfl rfl

end GoTypes
